import Mathlib

/-!
# Verification of the greedy VRP scheduler (`vrp.py`)

This file gives a shallow embedding of the scheduling core of `vrp.py`.

* The geometric layer (`calculateHours`, `buildRouteTimes`, `buildRows`)
  works over `ℝ`, with Euclidean distances via `Real.sqrt`, exactly
  mirroring the Python source.
* The scheduling layer (`findSchedulingDriver`, `findNextSchedule`,
  `applySchedule`, `schedStep`, `schedRun`, `finalizeLast`,
  `mainSchedule`) is polymorphic over a linear ordered ring `α`, so the
  same definitions run on the geometric `ℝ`-valued route tables and on
  concrete `ℤ`-valued tables used as executable witnesses.
* Python exceptions (`min` of an empty sequence, `.iloc[0]` of an empty
  selection, attribute access on `None`) are modelled by `Option`:
  a `none` result marks the program crashing at that point.
* The `while` loop of `main` is modelled by the fuel-indexed `schedRun`;
  `RunResult.timeout` marks fuel exhaustion with the loop condition still
  true, so termination statements are statements about `timeout`
  unreachability.  Single-step reachability is captured by `Reaches`.
-/

set_option linter.unusedSectionVars false

namespace VRP

/-- The `RouteTime` class: a candidate edge towards load `loadNumber`,
with the transition time, the return-home time of the target, and their
sum (the sum is set by the constructor `RouteTime.make`, mirroring
`RouteTime.__init__`). -/
structure RouteTime (α : Type) where
  loadNumber : Nat
  currentDropoffToNextDropoff : α
  dropoffToHome : α
  currentDropoffToNextDropoffToHome : α
  deriving DecidableEq, Repr

/-- `RouteTime.__init__`: the stored total is the sum of the two parts. -/
def RouteTime.make {α : Type} [LinearOrderedRing α]
    (loadNumber : Nat) (currentDropoffToNextDropoff dropoffToHome : α) :
    RouteTime α :=
  ⟨loadNumber, currentDropoffToNextDropoff, dropoffToHome,
    currentDropoffToNextDropoff + dropoffToHome⟩

/-- One row of the dataframe after `main`'s precomputation: the load
number together with the `homeToDropoff`, `dropoffToHome` and
`routeTimes` columns. -/
structure Row (α : Type) where
  loadNumber : Nat
  homeToDropoff : α
  dropoffToHome : α
  routeTimes : List (RouteTime α)
  deriving DecidableEq, Repr

/-- The `Driver` class. -/
structure Driver (α : Type) where
  loads : List Nat
  driveHours : α
  isScheduling : Bool
  deriving DecidableEq, Repr

/-- `Driver.__init__`: empty route, zero hours, scheduling. -/
def Driver.new {α : Type} [LinearOrderedRing α] : Driver α := ⟨[], 0, true⟩

/-- The mutable state of `main`'s loop: the driver pool and the list of
already scheduled load numbers. -/
structure SchedState (α : Type) where
  drivers : List (Driver α)
  loadsScheduled : List Nat
  deriving DecidableEq, Repr

variable {α : Type} [LinearOrderedRing α]

/-- `findSchedulingDriver`: the first driver whose `isScheduling` flag is
set, or `none`. -/
def findSchedulingDriver : List (Driver α) → Option (Driver α)
  | [] => none
  | d :: ds => if d.isScheduling = true then some d else findSchedulingDriver ds

/-- Index-tracking version of `findSchedulingDriver`: since the Python
code mutates the found driver in place, the embedding needs the position
of the first scheduling driver in the pool. -/
def findIdxSched : List (Driver α) → Option (Nat × Driver α)
  | [] => none
  | d :: ds =>
    if d.isScheduling = true then some (0, d)
    else (findIdxSched ds).map fun p => (p.1 + 1, p.2)

/-- `df.loc[df["loadNumber"] == loadNumber].iloc[0]`: the first row with
the given load number; `none` models the `IndexError` when no row
matches. -/
def lookupRow (df : List (Row α)) (loadNumber : Nat) : Option (Row α) :=
  (df.filter fun r => decide (r.loadNumber = loadNumber)).head?

/-- Python's `min(xs, key=...)` (also `nsmallest(1, col).iloc[0]`): the
first element attaining the minimal key, `none` on the empty list
(modelling `ValueError` / `IndexError`). -/
def minByKey {β : Type} (key : β → α) : List β → Option β
  | [] => none
  | b :: bs => some (bs.foldl (fun best x => if key x < key best then x else best) b)

/-- `findNextSchedule`.  Outer `none` = crash (row lookup or `min` on an
empty candidate list); `some none` = the feasibility check failed and the
Python function returns `None`; `some (some rt)` = the chosen next
schedule. -/
def findNextSchedule (currentLoad : Nat) (df : List (Row α)) (driver : Driver α)
    (loadsScheduled : List Nat) : Option (Option (RouteTime α)) :=
  match lookupRow df currentLoad with
  | none => none
  | some currentRow =>
    let nextSchedules :=
      currentRow.routeTimes.filter fun obj => decide (obj.loadNumber ∉ loadsScheduled)
    match minByKey (fun obj => obj.currentDropoffToNextDropoffToHome) nextSchedules with
    | none => none
    | some nextSchedule =>
      if driver.driveHours + nextSchedule.currentDropoffToNextDropoffToHome > 12 then
        some none
      else
        some (some nextSchedule)

/-- `applySchedule`: append the load to the global scheduled list and to
the driver's route, and add the given hours to the driver. -/
def applySchedule (loadsScheduled : List Nat) (driver : Driver α)
    (loadNumber : Nat) (hours : α) : List Nat × Driver α :=
  (loadsScheduled ++ [loadNumber],
   { driver with
      loads := driver.loads ++ [loadNumber],
      driveHours := driver.driveHours + hours })

/-- `df.query("loadNumber not in @loadsScheduled").nsmallest(1, "homeToDropoff").iloc[0]`:
the first unscheduled row of minimal `homeToDropoff`; `none` models the
`IndexError` on an empty selection. -/
def firstRoute (df : List (Row α)) (loadsScheduled : List Nat) : Option (Row α) :=
  minByKey (fun r => r.homeToDropoff)
    (df.filter fun r => decide (r.loadNumber ∉ loadsScheduled))

/-- The body of one loop iteration, after the acting driver has been
determined: `drivers` is the (possibly extended) pool, `i` the index of
the acting driver in it, `driver` the acting driver itself. -/
def schedStepAux (df : List (Row α)) (s : SchedState α)
    (drivers : List (Driver α)) (i : Nat) (driver : Driver α) :
    Option (SchedState α) :=
  if driver.loads = [] then
    match firstRoute df s.loadsScheduled with
    | none => none
    | some firstRow =>
      let r := applySchedule s.loadsScheduled driver firstRow.loadNumber firstRow.homeToDropoff
      some ⟨drivers.set i r.2, r.1⟩
  else
    match driver.loads.getLast? with
    | none => none
    | some lastScheduledLoad =>
      match findNextSchedule lastScheduledLoad df driver s.loadsScheduled with
      | none => none
      | some none =>
        match lookupRow df lastScheduledLoad with
        | none => none
        | some currentRow =>
          some ⟨drivers.set i
            { driver with
                driveHours := driver.driveHours + currentRow.dropoffToHome,
                isScheduling := false },
            s.loadsScheduled⟩
      | some (some nextSchedule) =>
        let r := applySchedule s.loadsScheduled driver nextSchedule.loadNumber
          nextSchedule.currentDropoffToNextDropoff
        some ⟨drivers.set i r.2, r.1⟩

/-- One iteration of `main`'s `while` loop: find (or create) the acting
driver, then run the iteration body.  `none` models an uncaught Python
exception inside the iteration. -/
def schedStep (df : List (Row α)) (s : SchedState α) : Option (SchedState α) :=
  match findIdxSched s.drivers with
  | some p => schedStepAux df s s.drivers p.1 p.2
  | none => schedStepAux df s (s.drivers ++ [Driver.new]) s.drivers.length Driver.new

/-- Result of running the loop with a given amount of fuel. -/
inductive RunResult (α : Type) where
  | done : SchedState α → RunResult α
  | crashed : RunResult α
  | timeout : SchedState α → RunResult α
  deriving DecidableEq, Repr

/-- `main`'s `while len(loadsScheduled) < df.shape[0]` loop, with fuel:
`done` is a normal exit, `crashed` an uncaught exception, `timeout`
marks exhausted fuel with the loop condition still true. -/
def schedRun (df : List (Row α)) : Nat → SchedState α → RunResult α
  | 0, s =>
    if s.loadsScheduled.length < df.length then .timeout s else .done s
  | fuel + 1, s =>
    if s.loadsScheduled.length < df.length then
      match schedStep df s with
      | none => .crashed
      | some s' => schedRun df fuel s'
    else .done s

/-- The post-loop closing step of `main` (lines 254–259): finalize the
scheduling driver.  `none` models the `AttributeError` when
`findSchedulingDriver` returns `None` (and the impossible `IndexError`
on an empty route / missing row). -/
def finalizeLast (df : List (Row α)) (s : SchedState α) :
    Option (List (Driver α)) :=
  match findIdxSched s.drivers with
  | none => none
  | some p =>
    match p.2.loads.getLast? with
    | none => none
    | some lastScheduledLoad =>
      match lookupRow df lastScheduledLoad with
      | none => none
      | some currentRow =>
        some (s.drivers.set p.1
          { p.2 with
              driveHours := p.2.driveHours + currentRow.dropoffToHome,
              isScheduling := false })

/-- The initial scheduling state of `main`: no drivers, nothing scheduled. -/
def schedInit : SchedState α := ⟨[], []⟩

/-- The whole scheduling part of `main`: run the loop, then the closing
step; the result is the final driver pool (whose routes `main` prints),
or `none` if the program crashes. -/
def mainSchedule (df : List (Row α)) (fuel : Nat) : Option (List (Driver α)) :=
  match schedRun df fuel schedInit with
  | .done s => finalizeLast df s
  | _ => none

/-- `Reaches df s s'`: the loop, started at state `s`, passes through
state `s'` after zero or more successful iterations (each taken only
while the loop condition holds).  This captures "at every point during
the run". -/
inductive Reaches (df : List (Row α)) : SchedState α → SchedState α → Prop
  | refl (s : SchedState α) : Reaches df s s
  | step (s s' s'' : SchedState α) :
      s.loadsScheduled.length < df.length →
      schedStep df s = some s' →
      Reaches df s' s'' →
      Reaches df s s''

/-- The load numbers of a route table, in row order. -/
def dfIds (df : List (Row α)) : List Nat := df.map Row.loadNumber

/-- Whether a run result is a fuel exhaustion marker. -/
def RunResult.isTimeout : RunResult α → Bool
  | .timeout _ => true
  | _ => false

/-- Only the driver at the last position of the pool may still be
scheduling. -/
def LastActiveOnly (ds : List (Driver α)) : Prop :=
  ∀ i d, ds[i]? = some d → d.isScheduling = true → i + 1 = ds.length

/-- How `schedStep` determined the acting driver: either the first
scheduling driver of the pool at its index, or a fresh driver appended
at the end. -/
def FoundSpec (s : SchedState α) (drivers : List (Driver α)) (i : Nat)
    (driver : Driver α) : Prop :=
  (findIdxSched s.drivers = some (i, driver) ∧ drivers = s.drivers) ∨
  (findIdxSched s.drivers = none ∧ drivers = s.drivers ++ [Driver.new] ∧
    i = s.drivers.length ∧ driver = Driver.new)

/-- The inductive structural invariant of `main`'s loop. -/
structure StInv (df : List (Row α)) (s : SchedState α) : Prop where
  lastActive : LastActiveOnly s.drivers
  loadsNe : ∀ d ∈ s.drivers, d.loads ≠ []
  joinEq : (s.drivers.map Driver.loads).flatten = s.loadsScheduled
  nodup : s.loadsScheduled.Nodup
  condOrActive : s.loadsScheduled.length < df.length ∨ df = [] ∨
    (findIdxSched s.drivers).isSome = true

/-- Termination measure of the loop: two units per still-unassigned load
plus one unit when an active driver exists. -/
def loopMeasure (df : List (Row α)) (s : SchedState α) : Nat :=
  2 * (df.length - s.loadsScheduled.length) +
    (if (findIdxSched s.drivers).isSome = true then 1 else 0)

/-- Every stored `RouteTime` total is the sum of its two parts (true of
every table built by `buildRouteTimes`, whose constructor sets the sum). -/
def RtSums (df : List (Row α)) : Prop :=
  ∀ row ∈ df, ∀ rt ∈ row.routeTimes,
    rt.currentDropoffToNextDropoffToHome =
      rt.currentDropoffToNextDropoff + rt.dropoffToHome

/-- Every stored `RouteTime` component is nonnegative (true of every
table built from geometry: they are sums of distances over 60). -/
def RtNonneg (df : List (Row α)) : Prop :=
  ∀ row ∈ df, ∀ rt ∈ row.routeTimes,
    0 ≤ rt.dropoffToHome ∧ 0 ≤ rt.currentDropoffToNextDropoff

/-- Edge targets are load numbers of the table. -/
def TargetsClosed (df : List (Row α)) : Prop :=
  ∀ row ∈ df, ∀ rt ∈ row.routeTimes, rt.loadNumber ∈ dfIds df

/-- Every distinct other load has an outgoing edge (true of the O(n²)
`buildRouteTimes` table). -/
def TargetsComplete (df : List (Row α)) : Prop :=
  ∀ row ∈ df, ∀ row' ∈ df, row.loadNumber ≠ row'.loadNumber →
    ∃ rt ∈ row.routeTimes, rt.loadNumber = row'.loadNumber

/-- Within one row, edge targets are pairwise distinct. -/
def TargetsNodup (df : List (Row α)) : Prop :=
  ∀ row ∈ df, (row.routeTimes.map RouteTime.loadNumber).Nodup

/-- Triangle-inequality facts a geometric table satisfies: the return
leg of a load is no longer than its first leg, and reaching a load `L`
via any predecessor (plus that predecessor's return leg) is no shorter
than reaching `L` directly from home. -/
def TriangleFacts (df : List (Row α)) : Prop :=
  (∀ row ∈ df, 0 ≤ row.dropoffToHome ∧ row.dropoffToHome ≤ row.homeToDropoff) ∧
  (∀ row ∈ df, ∀ rt ∈ row.routeTimes, ∀ row' ∈ df,
    row'.loadNumber = rt.loadNumber →
      row'.homeToDropoff ≤ row.dropoffToHome + rt.currentDropoffToNextDropoff)

/-- Cap invariant: every still-active driver that has already received a
second-or-later load is within the 12-hour cap. -/
def CapInv (s : SchedState α) : Prop :=
  ∀ d ∈ s.drivers, d.isScheduling = true → 2 ≤ d.loads.length →
    d.driveHours ≤ 12

/-- All scheduled load numbers come from the table. -/
def IdsInv (df : List (Row α)) (s : SchedState α) : Prop :=
  ∀ l ∈ s.loadsScheduled, l ∈ dfIds df

/-- First stored edge of a row towards a given load number. -/
def lookupRT : List (RouteTime α) → Nat → Option (RouteTime α)
  | [], _ => none
  | rt :: rest, l => if rt.loadNumber = l then some rt else lookupRT rest l

/-- Sum of the transition hours along a route that starts at the load
`cur` and then serves the given list of loads in order, read off the
table; `none` if some lookup fails. -/
def chainCost (df : List (Row α)) : Nat → List Nat → Option α
  | _, [] => some 0
  | cur, l :: rest =>
    match lookupRow df cur with
    | none => none
    | some row =>
      match lookupRT row.routeTimes l with
      | none => none
      | some rt =>
        match chainCost df l rest with
        | none => none
        | some c => some (rt.currentDropoffToNextDropoff + c)

/-- Drive hours a still-active driver with the given route should have
accumulated: first leg from home plus all transition legs. -/
def partialHours (df : List (Row α)) (route : List Nat) : Option α :=
  match route with
  | [] => none
  | l :: rest =>
    match lookupRow df l, chainCost df l rest with
    | some row, some c => some (row.homeToDropoff + c)
    | _, _ => none

/-- Total drive hours of a finalized route: first leg, transition legs,
and the return-home leg of the last load, charged once. -/
def routeHours (df : List (Row α)) (route : List Nat) : Option α :=
  match partialHours df route, route.getLast? with
  | some p, some lastl =>
    match lookupRow df lastl with
    | some lastRow => some (p + lastRow.dropoffToHome)
    | none => none
  | _, _ => none

/-- For an active driver, `driveHours` dominates the return-home time
of its last load (a triangle-inequality consequence on geometric
tables). -/
def DistInv (df : List (Row α)) (s : SchedState α) : Prop :=
  ∀ d ∈ s.drivers, d.isScheduling = true → ∀ last, d.loads.getLast? = some last →
    ∀ row ∈ df, row.loadNumber = last → row.dropoffToHome ≤ d.driveHours

/-- For an active driver, `driveHours` dominates the `homeToDropoff`
time of its first load. -/
def HeadInv (df : List (Row α)) (s : SchedState α) : Prop :=
  ∀ d ∈ s.drivers, d.isScheduling = true → ∀ h, d.loads.head? = some h →
    ∀ row ∈ df, row.loadNumber = h → row.homeToDropoff ≤ d.driveHours

/-- A load whose first leg alone exceeds the cap is always the sole load
of its driver. -/
def OversizedInv (df : List (Row α)) (s : SchedState α) : Prop :=
  ∀ d ∈ s.drivers, ∀ id ∈ d.loads, ∀ row ∈ df, row.loadNumber = id →
    12 < row.homeToDropoff → d.loads = [id]

/-- Accounting invariant: an active driver's `driveHours` is the partial
cost of its route (first leg plus transition legs); a finalized driver's
is the full cost (with the last return leg charged once). -/
def HoursInv (df : List (Row α)) (s : SchedState α) : Prop :=
  ∀ d ∈ s.drivers,
    (d.isScheduling = true → partialHours df d.loads = some d.driveHours) ∧
    (d.isScheduling = false → routeHours df d.loads = some d.driveHours)

/-! ### The geometric layer over `ℝ` -/

/-- `calculateHours`: sum of Euclidean leg lengths divided by the speed
constant 60. -/
noncomputable def calculateHours (routes : List ((ℝ × ℝ) × (ℝ × ℝ))) : ℝ :=
  (routes.foldl
    (fun total route =>
      total + Real.sqrt ((route.2.1 - route.1.1) ^ 2 + (route.2.2 - route.1.2) ^ 2))
    0) / 60

/-- One parsed line of the input file. -/
structure RawLoad where
  loadNumber : Nat
  pickup : ℝ × ℝ
  dropoff : ℝ × ℝ

/-- One dataframe row after `main` adds the constant `home` column. -/
structure DfRow where
  loadNumber : Nat
  pickup : ℝ × ℝ
  dropoff : ℝ × ℝ
  home : ℝ × ℝ

/-- `df["home"] = [(0, 0)] * len(df)`. -/
def addHome (l : RawLoad) : DfRow := ⟨l.loadNumber, l.pickup, l.dropoff, (0, 0)⟩

/-- `buildRouteTimes`: for every ordered pair of rows with distinct
indices, the candidate edge from the first to the second. -/
noncomputable def buildRouteTimes (df : List DfRow) : List (List (RouteTime ℝ)) :=
  df.enum.map fun current =>
    df.enum.filterMap fun next =>
      if current.1 ≠ next.1 then
        some (RouteTime.make next.2.loadNumber
          (calculateHours
            [(current.2.dropoff, next.2.pickup), (next.2.pickup, next.2.dropoff)])
          (calculateHours [(next.2.dropoff, next.2.home)]))
      else none

/-- The full precomputation of `main` before the loop: the `home`,
`homeToDropoff`, `dropoffToHome` and `routeTimes` columns. -/
noncomputable def buildRows (loads : List RawLoad) : List (Row ℝ) :=
  let df := loads.map addHome
  (df.zip (buildRouteTimes df)).map fun rr =>
    { loadNumber := rr.1.loadNumber,
      homeToDropoff :=
        calculateHours [(rr.1.home, rr.1.pickup), (rr.1.pickup, rr.1.dropoff)],
      dropoffToHome := calculateHours [(rr.1.dropoff, rr.1.home)],
      routeTimes := rr.2 }

/-- Euclidean length of one leg, as used inside `calculateHours`. -/
noncomputable def legLength (p q : ℝ × ℝ) : ℝ :=
  Real.sqrt ((q.1 - p.1) ^ 2 + (q.2 - p.2) ^ 2)

/-- A planar point as a vector of `EuclideanSpace ℝ (Fin 2)`, used to
derive the triangle inequality for `legLength`. -/
noncomputable def E2 (p : ℝ × ℝ) : EuclideanSpace ℝ (Fin 2) :=
  (WithLp.equiv 2 (Fin 2 → ℝ)).symm ![p.1, p.2]

/-- The row `buildRows` derives from the enumerated dataframe entry
`cur` (see `buildRows_eq`). -/
noncomputable def rowOfEnum (dfh : List DfRow) (cur : Nat × DfRow) : Row ℝ :=
  { loadNumber := cur.2.loadNumber,
    homeToDropoff :=
      calculateHours [(cur.2.home, cur.2.pickup), (cur.2.pickup, cur.2.dropoff)],
    dropoffToHome := calculateHours [(cur.2.dropoff, cur.2.home)],
    routeTimes := dfh.enum.filterMap fun next =>
      if cur.1 ≠ next.1 then
        some (RouteTime.make next.2.loadNumber
          (calculateHours
            [(cur.2.dropoff, next.2.pickup), (next.2.pickup, next.2.dropoff)])
          (calculateHours [(next.2.dropoff, next.2.home)]))
      else none }

/-! ### Concrete inputs used in counterexamples and witnesses -/

/-- A one-load integer table: load 1, one hour out, one hour back. -/
def df1z : List (Row ℤ) := [⟨1, 1, 1, []⟩]

/-- The integer route table of the spec's two-load continuation example
(numerically identical to `buildRows rawPair`): load 1 takes 10 h from
home, load 2 takes 20 h; the edge 1→2 has transition 10 h and return
20 h (total 30 h), the edge 2→1 has transition 30 h and return 10 h. -/
def df2z : List (Row ℤ) :=
  [⟨1, 10, 10, [RouteTime.make 2 10 20]⟩,
   ⟨2, 20, 20, [RouteTime.make 1 30 10]⟩]

/-- A three-load integer table whose loads chain feasibly. -/
def df3z : List (Row ℤ) :=
  [⟨1, 1, 1, [RouteTime.make 2 1 2, RouteTime.make 3 5 3]⟩,
   ⟨2, 2, 2, [RouteTime.make 1 1 1, RouteTime.make 3 1 3]⟩,
   ⟨3, 3, 3, [RouteTime.make 1 5 1, RouteTime.make 2 3 2]⟩]

/-- The state of the one-load run after its single loop iteration. -/
def s1z : SchedState ℤ := ⟨[⟨[1], 1, true⟩], [1]⟩

/-- The raw loads of the spec's two-load continuation example. -/
def rawPair : List RawLoad := [⟨1, (0, 0), (600, 0)⟩, ⟨2, (600, 0), (1200, 0)⟩]

/-- A single raw load whose first leg alone takes 13 h > 12 h. -/
def rawOversized : List RawLoad := [⟨1, (0, 0), (780, 0)⟩]

/-! ### Basic facts about the helper functions -/

theorem minByKey_eq_none {β : Type} (key : β → α) (l : List β) :
    minByKey key l = none ↔ l = [] := by
  cases l <;> simp [minByKey]

theorem foldl_min_mem {β : Type} (key : β → α) (l : List β) (b : β) :
    l.foldl (fun best x => if key x < key best then x else best) b ∈ b :: l := by
  induction l generalizing b with
  | nil => simp [List.foldl]
  | cons x xs ih =>
    simp only [List.foldl_cons]
    by_cases hx : key x < key b
    · rw [if_pos hx]
      rcases List.mem_cons.mp (ih x) with h1 | h1
      · rw [h1]; exact List.mem_cons.mpr (Or.inr (List.mem_cons_self x xs))
      · exact List.mem_cons.mpr (Or.inr (List.mem_cons.mpr (Or.inr h1)))
    · rw [if_neg hx]
      rcases List.mem_cons.mp (ih b) with h1 | h1
      · rw [h1]; exact List.mem_cons_self b (x :: xs)
      · exact List.mem_cons.mpr (Or.inr (List.mem_cons.mpr (Or.inr h1)))

theorem foldl_min_le {β : Type} (key : β → α) (l : List β) (b : β) :
    key (l.foldl (fun best x => if key x < key best then x else best) b) ≤ key b ∧
    ∀ x ∈ l, key (l.foldl (fun best x => if key x < key best then x else best) b) ≤ key x := by
  induction l generalizing b with
  | nil => simp [List.foldl]
  | cons x xs ih =>
    simp only [List.foldl_cons]
    by_cases hx : key x < key b
    · rw [if_pos hx]
      refine ⟨le_trans (ih x).1 (le_of_lt hx), ?_⟩
      intro y hy
      rcases List.mem_cons.mp hy with rfl | hy'
      · exact (ih y).1
      · exact (ih x).2 y hy'
    · rw [if_neg hx]
      refine ⟨(ih b).1, ?_⟩
      intro y hy
      rcases List.mem_cons.mp hy with rfl | hy'
      · exact le_trans (ih b).1 (le_of_not_lt hx)
      · exact (ih b).2 y hy'

theorem minByKey_mem {β : Type} {key : β → α} {l : List β} {b : β}
    (h : minByKey key l = some b) : b ∈ l := by
  cases l with
  | nil => simp [minByKey] at h
  | cons x xs =>
    simp only [minByKey, Option.some.injEq] at h
    have := foldl_min_mem key xs x
    rw [h] at this
    exact this

theorem minByKey_le {β : Type} {key : β → α} {l : List β} {b : β}
    (h : minByKey key l = some b) : ∀ x ∈ l, key b ≤ key x := by
  cases l with
  | nil => simp [minByKey] at h
  | cons x xs =>
    simp only [minByKey, Option.some.injEq] at h
    intro y hy
    have hle := foldl_min_le key xs x
    rw [h] at hle
    rcases List.mem_cons.mp hy with rfl | hy'
    · exact hle.1
    · exact hle.2 y hy'

theorem lookupRow_some {df : List (Row α)} {n : Nat} {r : Row α}
    (h : lookupRow df n = some r) : r ∈ df ∧ r.loadNumber = n := by
  unfold lookupRow at h
  have hmem : r ∈ df.filter (fun r => decide (r.loadNumber = n)) := by
    cases hf : df.filter (fun r => decide (r.loadNumber = n)) with
    | nil => rw [hf] at h; simp at h
    | cons a as =>
      rw [hf] at h
      simp only [List.head?_cons, Option.some.injEq] at h
      rw [← h]
      exact List.mem_cons_self a as
  have hm := List.mem_filter.mp hmem
  exact ⟨hm.1, of_decide_eq_true hm.2⟩

theorem lookupRow_eq_none {df : List (Row α)} {n : Nat} :
    lookupRow df n = none ↔ n ∉ dfIds df := by
  unfold lookupRow dfIds
  rw [List.head?_eq_none_iff, List.filter_eq_nil_iff]
  simp

theorem lookupRow_self {df : List (Row α)} (hnd : (dfIds df).Nodup)
    {r : Row α} (hr : r ∈ df) : lookupRow df r.loadNumber = some r := by
  induction df with
  | nil => cases hr
  | cons d ds ih =>
    simp only [dfIds, List.map_cons, List.nodup_cons] at hnd
    rcases List.mem_cons.mp hr with rfl | hr'
    · unfold lookupRow
      simp [List.filter_cons]
    · have hne : ¬ (d.loadNumber = r.loadNumber) := by
        intro he
        exact hnd.1 (he ▸ List.mem_map_of_mem Row.loadNumber hr')
      unfold lookupRow
      rw [List.filter_cons]
      simp only [hne, decide_eq_true_eq, if_false]
      exact ih hnd.2 hr'

theorem findSchedulingDriver_eq (ds : List (Driver α)) :
    findSchedulingDriver ds = (findIdxSched ds).map Prod.snd := by
  induction ds with
  | nil => rfl
  | cons d ds ih =>
    by_cases hd : d.isScheduling = true
    · simp [findSchedulingDriver, findIdxSched, hd]
    · simp only [findSchedulingDriver, findIdxSched, hd, if_false, ih]
      cases findIdxSched ds <;> rfl

theorem findIdxSched_eq_none {ds : List (Driver α)} :
    findIdxSched ds = none ↔ ∀ d ∈ ds, d.isScheduling = false := by
  induction ds with
  | nil => simp [findIdxSched]
  | cons d ds ih =>
    by_cases hd : d.isScheduling = true
    · simp [findIdxSched, hd]
    · have hd' : d.isScheduling = false := by
        cases hds : d.isScheduling
        · rfl
        · exact absurd hds hd
      rw [show findIdxSched (d :: ds) =
            (findIdxSched ds).map (fun p => (p.1 + 1, p.2)) from by
          simp [findIdxSched, hd]]
      rw [Option.map_eq_none', ih]
      simp only [List.mem_cons]
      constructor
      · rintro h x (rfl | hx)
        · exact hd'
        · exact h x hx
      · intro h x hx
        exact h x (Or.inr hx)

theorem findIdxSched_some {ds : List (Driver α)} {i : Nat} {d : Driver α}
    (h : findIdxSched ds = some (i, d)) :
    ds[i]? = some d ∧ d.isScheduling = true := by
  induction ds generalizing i with
  | nil => simp [findIdxSched] at h
  | cons a as ih =>
    by_cases ha : a.isScheduling = true
    · simp only [findIdxSched, ha, if_pos, Option.some.injEq, Prod.mk.injEq] at h
      obtain ⟨rfl, rfl⟩ := h
      exact ⟨by simp, ha⟩
    · simp only [findIdxSched, ha, if_false] at h
      cases hrec : findIdxSched as with
      | none => rw [hrec] at h; simp at h
      | some p =>
        rw [hrec] at h
        obtain ⟨p1, p2⟩ := p
        rw [Option.map_some'] at h
        cases h
        obtain ⟨h1, h2⟩ := ih hrec
        exact ⟨by simpa using h1, h2⟩

theorem findIdxSched_lt {ds : List (Driver α)} {i : Nat} {d : Driver α}
    (h : findIdxSched ds = some (i, d)) : i < ds.length := by
  have := (findIdxSched_some h).1
  exact (List.getElem?_eq_some_iff.mp this).1

/-! ### Step inversion -/

/-- Splitting a list at its last position. -/
theorem set_last_eq {β : Type} {ds : List β} {i : Nat} {d : β}
    (hget : ds[i]? = some d) (hlast : i + 1 = ds.length) (d' : β) :
    ds = ds.dropLast ++ [d] ∧ ds.set i d' = ds.dropLast ++ [d'] := by
  induction ds generalizing i with
  | nil => simp at hget
  | cons a as ih =>
    cases i with
    | zero =>
      have has : as = [] := List.length_eq_zero.mp (by
        simp only [List.length_cons] at hlast
        omega)
      subst has
      simp only [List.getElem?_cons_zero, Option.some.injEq] at hget
      subst hget
      simp [List.set]
    | succ j =>
      simp only [List.getElem?_cons_succ] at hget
      simp only [List.length_cons, Nat.add_right_cancel_iff] at hlast
      obtain ⟨h1, h2⟩ := ih hget hlast
      have hne : as ≠ [] := by
        intro he
        rw [he] at hlast
        simp at hlast
      rw [List.dropLast_cons_of_ne_nil hne]
      constructor
      · conv_lhs => rw [h1]
        simp
      · simp only [List.set_cons_succ, List.cons_append, List.cons.injEq, true_and]
        exact h2

theorem FoundSpec.getElem {s : SchedState α} {drivers : List (Driver α)}
    {i : Nat} {driver : Driver α} (h : FoundSpec s drivers i driver) :
    drivers[i]? = some driver := by
  rcases h with ⟨h1, rfl⟩ | ⟨h1, rfl, rfl, rfl⟩
  · exact (findIdxSched_some h1).1
  · exact List.getElem?_concat_length _ _

theorem FoundSpec.lt {s : SchedState α} {drivers : List (Driver α)}
    {i : Nat} {driver : Driver α} (h : FoundSpec s drivers i driver) :
    i < drivers.length :=
  (List.getElem?_eq_some_iff.mp h.getElem).1

theorem schedStep_elim {df : List (Row α)} {s s' : SchedState α}
    (h : schedStep df s = some s') :
    ∃ drivers i driver, FoundSpec s drivers i driver ∧
      schedStepAux df s drivers i driver = some s' := by
  unfold schedStep at h
  cases hf : findIdxSched s.drivers with
  | some p =>
    rw [hf] at h
    exact ⟨s.drivers, p.1, p.2, Or.inl ⟨by rw [hf], rfl⟩, h⟩
  | none =>
    rw [hf] at h
    exact ⟨s.drivers ++ [Driver.new], s.drivers.length, Driver.new,
      Or.inr ⟨hf, rfl, rfl, rfl⟩, h⟩

theorem schedStepAux_cases {df : List (Row α)} {s s' : SchedState α}
    {drivers : List (Driver α)} {i : Nat} {driver : Driver α}
    (h : schedStepAux df s drivers i driver = some s') :
    (∃ row, driver.loads = [] ∧ firstRoute df s.loadsScheduled = some row ∧
        s' = ⟨drivers.set i
            { driver with
                loads := driver.loads ++ [row.loadNumber],
                driveHours := driver.driveHours + row.homeToDropoff },
          s.loadsScheduled ++ [row.loadNumber]⟩) ∨
    (∃ last rt, driver.loads ≠ [] ∧ driver.loads.getLast? = some last ∧
        findNextSchedule last df driver s.loadsScheduled = some (some rt) ∧
        s' = ⟨drivers.set i
            { driver with
                loads := driver.loads ++ [rt.loadNumber],
                driveHours := driver.driveHours + rt.currentDropoffToNextDropoff },
          s.loadsScheduled ++ [rt.loadNumber]⟩) ∨
    (∃ last row, driver.loads ≠ [] ∧ driver.loads.getLast? = some last ∧
        findNextSchedule last df driver s.loadsScheduled = some none ∧
        lookupRow df last = some row ∧
        s' = ⟨drivers.set i
            { driver with
                driveHours := driver.driveHours + row.dropoffToHome,
                isScheduling := false },
          s.loadsScheduled⟩) := by
  unfold schedStepAux at h
  by_cases hl : driver.loads = []
  · rw [if_pos hl] at h
    cases hfr : firstRoute df s.loadsScheduled with
    | none => rw [hfr] at h; simp at h
    | some row =>
      rw [hfr] at h
      simp only [applySchedule, Option.some.injEq] at h
      exact Or.inl ⟨row, hl, rfl, h.symm⟩
  · rw [if_neg hl] at h
    cases hgl : driver.loads.getLast? with
    | none => rw [hgl] at h; simp at h
    | some last =>
      rw [hgl] at h
      simp only [] at h
      cases hfn : findNextSchedule last df driver s.loadsScheduled with
      | none => rw [hfn] at h; simp at h
      | some o =>
        rw [hfn] at h
        cases o with
        | none =>
          simp only [] at h
          cases hlr : lookupRow df last with
          | none => rw [hlr] at h; simp at h
          | some row =>
            rw [hlr] at h
            simp only [Option.some.injEq] at h
            exact Or.inr (Or.inr ⟨last, row, hl, rfl, hfn, hlr, h.symm⟩)
        | some rt =>
          simp only [applySchedule, Option.some.injEq] at h
          exact Or.inr (Or.inl ⟨last, rt, hl, rfl, hfn, h.symm⟩)

/-! ### The structural loop invariant -/

theorem of_getElem?_some {β : Type} {l : List β} {i : Nat} {a : β}
    (h : l[i]? = some a) : a ∈ l := by
  obtain ⟨hlt, rfl⟩ := List.getElem?_eq_some_iff.mp h
  exact List.getElem_mem hlt

theorem nodup_snoc {l : List Nat} {x : Nat} (h1 : l.Nodup) (h2 : x ∉ l) :
    (l ++ [x]).Nodup := by
  rw [List.nodup_append]
  exact ⟨h1, List.nodup_singleton x, by simpa [List.disjoint_singleton] using h2⟩

theorem findIdxSched_isSome {ds : List (Driver α)} :
    (findIdxSched ds).isSome = true ↔ ∃ d ∈ ds, d.isScheduling = true := by
  constructor
  · intro h
    cases hf : findIdxSched ds with
    | none => rw [hf] at h; simp at h
    | some p =>
      obtain ⟨h1, h2⟩ := findIdxSched_some (by
        rw [hf] : findIdxSched ds = some (p.1, p.2))
      exact ⟨p.2, of_getElem?_some h1, h2⟩
  · intro ⟨d, hd, hact⟩
    cases hf : findIdxSched ds with
    | none =>
      rw [findIdxSched_eq_none.mp hf d hd] at hact
      cases hact
    | some p => rfl

theorem FoundSpec.active {s : SchedState α} {drivers : List (Driver α)}
    {i : Nat} {driver : Driver α} (h : FoundSpec s drivers i driver) :
    driver.isScheduling = true := by
  rcases h with ⟨h1, rfl⟩ | ⟨h1, rfl, rfl, rfl⟩
  · exact (findIdxSched_some h1).2
  · rfl

theorem FoundSpec.last {s : SchedState α} {drivers : List (Driver α)}
    {i : Nat} {driver : Driver α} (h : FoundSpec s drivers i driver)
    (hinv : LastActiveOnly s.drivers) : i + 1 = drivers.length := by
  rcases h with ⟨h1, rfl⟩ | ⟨h1, rfl, rfl, rfl⟩
  · exact hinv i driver (findIdxSched_some h1).1 (findIdxSched_some h1).2
  · simp

theorem lastActiveOnly_append {ds : List (Driver α)}
    (hall : ∀ d ∈ ds, d.isScheduling = false) (d' : Driver α) :
    LastActiveOnly (ds ++ [d']) := by
  intro j x hj hx
  rw [List.getElem?_append] at hj
  by_cases hlt : j < ds.length
  · rw [if_pos hlt] at hj
    rw [hall x (of_getElem?_some hj)] at hx
    cases hx
  · rw [if_neg hlt] at hj
    have hz : j - ds.length = 0 := by
      cases hsub : j - ds.length with
      | zero => rfl
      | succ k => rw [hsub] at hj; simp at hj
    have : j = ds.length := by omega
    simp [this]

theorem lastActiveOnly_set {ds : List (Driver α)} (hinv : LastActiveOnly ds)
    {i : Nat} (hlast : i + 1 = ds.length) (d' : Driver α) :
    LastActiveOnly (ds.set i d') := by
  intro j x hj hx
  rw [List.length_set]
  by_cases hij : i = j
  · subst hij; exact hlast
  · rw [List.getElem?_set_ne hij] at hj
    exact hinv j x hj hx

theorem FoundSpec.pool_lastActiveOnly {s : SchedState α}
    {drivers : List (Driver α)} {i : Nat} {driver : Driver α}
    (h : FoundSpec s drivers i driver) (hinv : LastActiveOnly s.drivers) :
    LastActiveOnly drivers := by
  rcases h with ⟨h1, rfl⟩ | ⟨h1, rfl, rfl, rfl⟩
  · exact hinv
  · exact lastActiveOnly_append (findIdxSched_eq_none.mp h1) _

/-- Flattened routes of the pool after updating the last driver. -/
theorem flatten_set_last {ds : List (Driver α)} {i : Nat} {d : Driver α}
    (hget : ds[i]? = some d) (hlast : i + 1 = ds.length) :
    ∃ A, (ds.map Driver.loads).flatten = A ++ d.loads ∧
      ∀ d', ((ds.set i d').map Driver.loads).flatten = A ++ d'.loads := by
  refine ⟨((ds.dropLast).map Driver.loads).flatten, ?_, ?_⟩
  · conv_lhs => rw [(set_last_eq hget hlast d).1]
    simp
  · intro d'
    rw [(set_last_eq hget hlast d').2]
    simp

theorem firstRoute_spec {df : List (Row α)} {ls : List Nat} {row : Row α}
    (h : firstRoute df ls = some row) :
    row ∈ df ∧ row.loadNumber ∉ ls ∧
      ∀ r ∈ df, r.loadNumber ∉ ls → row.homeToDropoff ≤ r.homeToDropoff := by
  unfold firstRoute at h
  have hmem := minByKey_mem h
  have hle := minByKey_le h
  have hm := List.mem_filter.mp hmem
  refine ⟨hm.1, of_decide_eq_true hm.2, ?_⟩
  intro r hr hrn
  exact hle r (List.mem_filter.mpr ⟨hr, decide_eq_true hrn⟩)

theorem findNextSchedule_some_elim {cl : Nat} {df : List (Row α)}
    {driver : Driver α} {ls : List Nat} {o : Option (RouteTime α)}
    (h : findNextSchedule cl df driver ls = some o) :
    ∃ row m, lookupRow df cl = some row ∧
      minByKey (fun obj => obj.currentDropoffToNextDropoffToHome)
        (row.routeTimes.filter fun obj => decide (obj.loadNumber ∉ ls)) = some m ∧
      ((driver.driveHours + m.currentDropoffToNextDropoffToHome > 12 ∧ o = none) ∨
        (driver.driveHours + m.currentDropoffToNextDropoffToHome ≤ 12 ∧ o = some m)) := by
  unfold findNextSchedule at h
  cases hrow : lookupRow df cl with
  | none => rw [hrow] at h; simp at h
  | some row =>
    rw [hrow] at h
    simp only [] at h
    cases hmin : minByKey (fun obj => obj.currentDropoffToNextDropoffToHome)
        (row.routeTimes.filter fun obj => decide (obj.loadNumber ∉ ls)) with
    | none => rw [hmin] at h; simp at h
    | some m =>
      rw [hmin] at h
      simp only [] at h
      by_cases hgt : driver.driveHours + m.currentDropoffToNextDropoffToHome > 12
      · rw [if_pos hgt] at h
        refine ⟨row, m, rfl, hmin, Or.inl ⟨hgt, ?_⟩⟩
        cases h
        rfl
      · rw [if_neg hgt] at h
        refine ⟨row, m, rfl, hmin, Or.inr ⟨le_of_not_lt hgt, ?_⟩⟩
        cases h
        rfl

theorem findNextSchedule_commit {cl : Nat} {df : List (Row α)}
    {driver : Driver α} {ls : List Nat} {rt : RouteTime α}
    (h : findNextSchedule cl df driver ls = some (some rt)) :
    ∃ row, lookupRow df cl = some row ∧ rt ∈ row.routeTimes ∧
      rt.loadNumber ∉ ls ∧
      driver.driveHours + rt.currentDropoffToNextDropoffToHome ≤ 12 := by
  obtain ⟨row, m, h1, h2, h3 | h3⟩ := findNextSchedule_some_elim h
  · exact absurd h3.2 (by simp)
  · obtain ⟨hle, heq⟩ := h3
    have hrm : rt = m := by
      simpa using heq
    subst hrm
    have hmem := List.mem_filter.mp (minByKey_mem h2)
    exact ⟨row, h1, hmem.1, of_decide_eq_true hmem.2, hle⟩

theorem stInv_init (df : List (Row α)) : StInv df (schedInit : SchedState α) := by
  refine ⟨?_, ?_, ?_, ?_, ?_⟩
  · intro i d h _
    simp [schedInit] at h
  · intro d h
    simp [schedInit] at h
  · simp [schedInit]
  · simp [schedInit]
  · cases df with
    | nil => exact Or.inr (Or.inl rfl)
    | cons r rs => exact Or.inl (by simp [schedInit])

theorem stInv_step {df : List (Row α)} {s s' : SchedState α}
    (hinv : StInv df s) (hcond : s.loadsScheduled.length < df.length)
    (hstep : schedStep df s = some s') : StInv df s' := by
  obtain ⟨drivers, i, driver, hfound, haux⟩ := schedStep_elim hstep
  have hget := hfound.getElem
  have hlt := hfound.lt
  have hact := hfound.active
  have hlast := hfound.last hinv.lastActive
  have hlao := hfound.pool_lastActiveOnly hinv.lastActive
  obtain ⟨A, hA1, hA2⟩ := flatten_set_last hget hlast
  have hflat : (drivers.map Driver.loads).flatten = s.loadsScheduled := by
    rcases hfound with ⟨h1, rfl⟩ | ⟨h1, rfl, rfl, rfl⟩
    · exact hinv.joinEq
    · simp [Driver.new, hinv.joinEq]
  have hAs : A ++ driver.loads = s.loadsScheduled := by
    rw [← hA1]
    exact hflat
  have hdrop : ∀ d ∈ drivers.dropLast, d.loads ≠ [] := by
    rcases hfound with ⟨h1, rfl⟩ | ⟨h1, rfl, rfl, rfl⟩
    · intro d hd
      exact hinv.loadsNe d ((List.dropLast_sublist _).subset hd)
    · rw [List.dropLast_concat]
      exact hinv.loadsNe
  rcases schedStepAux_cases haux with
    ⟨row, hl, hfr, rfl⟩ | ⟨last, rt, hne, hgl, hfn, rfl⟩ |
      ⟨last, row, hne, hgl, hfn, hlr, rfl⟩
  · -- first assignment to an empty-route driver
    obtain ⟨hrdf, hrnot, hrmin⟩ := firstRoute_spec hfr
    refine ⟨lastActiveOnly_set hlao hlast _, ?_, ?_, nodup_snoc hinv.nodup hrnot, ?_⟩
    · intro d hd
      rw [(set_last_eq hget hlast _).2] at hd
      rcases List.mem_append.mp hd with hd1 | hd1
      · exact hdrop d hd1
      · rw [List.mem_singleton.mp hd1]
        simp
    · rw [hA2]
      simp only []
      rw [← List.append_assoc, hAs]
    · refine Or.inr (Or.inr (findIdxSched_isSome.mpr ⟨_, List.mem_set drivers i hlt _, ?_⟩))
      simpa using hact
  · -- continuation assignment
    obtain ⟨row, hlr, hrtmem, hrtnot, hfeas⟩ := findNextSchedule_commit hfn
    refine ⟨lastActiveOnly_set hlao hlast _, ?_, ?_, nodup_snoc hinv.nodup hrtnot, ?_⟩
    · intro d hd
      rw [(set_last_eq hget hlast _).2] at hd
      rcases List.mem_append.mp hd with hd1 | hd1
      · exact hdrop d hd1
      · rw [List.mem_singleton.mp hd1]
        simp
    · rw [hA2]
      simp only []
      rw [← List.append_assoc, hAs]
    · refine Or.inr (Or.inr (findIdxSched_isSome.mpr ⟨_, List.mem_set drivers i hlt _, ?_⟩))
      simpa using hact
  · -- finalization: no load committed, driver goes inactive
    refine ⟨lastActiveOnly_set hlao hlast _, ?_, ?_, hinv.nodup, Or.inl hcond⟩
    · intro d hd
      rw [(set_last_eq hget hlast _).2] at hd
      rcases List.mem_append.mp hd with hd1 | hd1
      · exact hdrop d hd1
      · rw [List.mem_singleton.mp hd1]
        simpa using hne
    · rw [hA2]
      simp only []
      exact hAs

theorem stInv_reaches {df : List (Row α)} {s s' : SchedState α}
    (hinv : StInv df s) (h : Reaches df s s') : StInv df s' := by
  induction h with
  | refl s => exact hinv
  | step s s1 s2 hc hstep _ ih => exact ih (stInv_step hinv hc hstep)

theorem schedRun_done_reaches {df : List (Row α)} {fuel : Nat}
    {s s' : SchedState α} (h : schedRun df fuel s = .done s') :
    Reaches df s s' ∧ ¬ s'.loadsScheduled.length < df.length := by
  induction fuel generalizing s with
  | zero =>
    unfold schedRun at h
    by_cases hc : s.loadsScheduled.length < df.length
    · rw [if_pos hc] at h
      cases h
    · rw [if_neg hc] at h
      cases h
      exact ⟨Reaches.refl _, hc⟩
  | succ n ih =>
    unfold schedRun at h
    by_cases hc : s.loadsScheduled.length < df.length
    · rw [if_pos hc] at h
      cases hstep : schedStep df s with
      | none => rw [hstep] at h; cases h
      | some s1 =>
        rw [hstep] at h
        obtain ⟨hr, hcond⟩ := ih h
        exact ⟨Reaches.step s s1 s' hc hstep hr, hcond⟩
    · rw [if_neg hc] at h
      cases h
      exact ⟨Reaches.refl _, hc⟩

/-! ### Finalized drivers are frozen -/

theorem schedStep_frozen {df : List (Row α)} {s s' : SchedState α}
    (hstep : schedStep df s = some s') {j : Nat} {d : Driver α}
    (hj : s.drivers[j]? = some d) (hd : d.isScheduling = false) :
    s'.drivers[j]? = some d := by
  obtain ⟨drivers, i, driver, hfound, haux⟩ := schedStep_elim hstep
  have hdrv : drivers[j]? = some d ∧ i ≠ j := by
    rcases hfound with ⟨h1, rfl⟩ | ⟨h1, rfl, rfl, rfl⟩
    · refine ⟨hj, ?_⟩
      intro hij
      subst hij
      have hda : driver.isScheduling = true := (findIdxSched_some h1).2
      have hdd : d = driver := by
        have h2 := (findIdxSched_some h1).1
        rw [hj] at h2
        exact Option.some.inj h2
      rw [← hdd, hd] at hda
      cases hda
    · have hjlt : j < s.drivers.length := (List.getElem?_eq_some_iff.mp hj).1
      refine ⟨?_, by omega⟩
      rw [List.getElem?_append, if_pos hjlt]
      exact hj
  rcases schedStepAux_cases haux with
    ⟨row, hl, hfr, rfl⟩ | ⟨last, rt, hne, hgl, hfn, rfl⟩ |
      ⟨last, row, hne, hgl, hfn, hlr, rfl⟩
  · rw [List.getElem?_set_ne hdrv.2]
    exact hdrv.1
  · rw [List.getElem?_set_ne hdrv.2]
    exact hdrv.1
  · rw [List.getElem?_set_ne hdrv.2]
    exact hdrv.1

theorem reaches_frozen {df : List (Row α)} {s s' : SchedState α}
    (h : Reaches df s s') :
    ∀ {j : Nat} {d : Driver α}, s.drivers[j]? = some d →
      d.isScheduling = false → s'.drivers[j]? = some d := by
  induction h with
  | refl s =>
    intro j d hj _
    exact hj
  | step s s1 s2 hc hstep hr ih =>
    intro j d hj hd
    exact ih (schedStep_frozen hstep hj hd) hd

theorem lastActiveOnly_filter_le_one {ds : List (Driver α)}
    (h : LastActiveOnly ds) :
    (ds.filter fun d => d.isScheduling).length ≤ 1 := by
  induction ds with
  | nil => simp
  | cons d rest ih =>
    by_cases hd : d.isScheduling = true
    · have h0 : (0 : Nat) + 1 = (d :: rest).length := h 0 d (by simp) hd
      have hrest : rest = [] := by
        simp only [List.length_cons] at h0
        exact List.length_eq_zero.mp (by omega)
      subst hrest
      simp [List.filter_cons, hd]
    · have hd' : d.isScheduling = false := by
        cases hv : d.isScheduling
        · rfl
        · exact absurd hv hd
      have hrest : LastActiveOnly rest := by
        intro i x hi hx
        have := h (i + 1) x (by simpa using hi) hx
        simpa using this
      simp only [List.filter_cons, hd', Bool.false_eq_true, if_false]
      exact ih hrest

theorem lastActiveOnly_finalized {ds : List (Driver α)} (h : LastActiveOnly ds)
    {i : Nat} {d : Driver α} (hget : ds[i]? = some d) (hlast : i + 1 = ds.length)
    {d' : Driver α} (hd' : d'.isScheduling = false) :
    findIdxSched (ds.set i d') = none := by
  rw [findIdxSched_eq_none]
  intro x hx
  obtain ⟨j, hj⟩ := List.mem_iff_getElem?.mp hx
  have hilt : i < ds.length := (List.getElem?_eq_some_iff.mp hget).1
  by_cases hij : i = j
  · subst hij
    rw [List.getElem?_set_self hilt] at hj
    rw [← Option.some.inj hj]
    exact hd'
  · rw [List.getElem?_set_ne hij] at hj
    cases hv : x.isScheduling
    · rfl
    · exfalso
      have := h j x hj hv
      omega

/-! ### Termination: the loop measure decreases -/

theorem loopMeasure_decreases {df : List (Row α)} {s s' : SchedState α}
    (hinv : StInv df s) (hcond : s.loadsScheduled.length < df.length)
    (hstep : schedStep df s = some s') :
    loopMeasure df s' < loopMeasure df s := by
  obtain ⟨drivers, i, driver, hfound, haux⟩ := schedStep_elim hstep
  have hget := hfound.getElem
  have hlast := hfound.last hinv.lastActive
  rcases schedStepAux_cases haux with
    ⟨row, hl, hfr, rfl⟩ | ⟨last, rt, hne, hgl, hfn, rfl⟩ |
      ⟨last, row, hne, hgl, hfn, hlr, rfl⟩
  · by_cases hA : (findIdxSched (drivers.set i
        { driver with
            loads := driver.loads ++ [row.loadNumber],
            driveHours := driver.driveHours + row.homeToDropoff })).isSome = true <;>
      by_cases hB : (findIdxSched s.drivers).isSome = true <;>
      simp [loopMeasure, hA, hB] <;> omega
  · by_cases hA : (findIdxSched (drivers.set i
        { driver with
            loads := driver.loads ++ [rt.loadNumber],
            driveHours := driver.driveHours + rt.currentDropoffToNextDropoff })).isSome = true <;>
      by_cases hB : (findIdxSched s.drivers).isSome = true <;>
      simp [loopMeasure, hA, hB] <;> omega
  · have hsome : drivers = s.drivers ∧ findIdxSched s.drivers = some (i, driver) := by
      rcases hfound with ⟨h1, rfl⟩ | ⟨h1, rfl, rfl, rfl⟩
      · exact ⟨rfl, h1⟩
      · simp [Driver.new] at hne
    obtain ⟨hdd, h1⟩ := hsome
    subst hdd
    have hbefore : (findIdxSched s.drivers).isSome = true := by
      rw [h1]
      rfl
    have hafter : findIdxSched (s.drivers.set i
        { driver with
            driveHours := driver.driveHours + row.dropoffToHome,
            isScheduling := false }) = none :=
      lastActiveOnly_finalized hinv.lastActive hget hlast rfl
    simp [loopMeasure, hbefore, hafter]

theorem schedRun_no_timeout {df : List (Row α)} :
    ∀ (fuel : Nat) (s : SchedState α), StInv df s → loopMeasure df s ≤ fuel →
      (schedRun df fuel s).isTimeout = false := by
  intro fuel
  induction fuel with
  | zero =>
    intro s hinv hm
    unfold schedRun
    by_cases hc : s.loadsScheduled.length < df.length
    · exfalso
      unfold loopMeasure at hm
      omega
    · rw [if_neg hc]
      rfl
  | succ f ih =>
    intro s hinv hm
    unfold schedRun
    by_cases hc : s.loadsScheduled.length < df.length
    · rw [if_pos hc]
      cases hstep : schedStep df s with
      | none => rfl
      | some s' =>
        refine ih s' (stInv_step hinv hc hstep) ?_
        have := loopMeasure_decreases hinv hc hstep
        omega
    · rw [if_neg hc]
      rfl

/-! ### Claim theorems: C2, C6, C9 -/

/-- **C2** (code bug): on an empty input the scheduler does not
terminate cleanly with zero drivers: the post-loop closing step looks up
the scheduling driver, gets `None`, and dereferences it
(`driver.loads[-1]`), an `AttributeError` — modelled here by
`mainSchedule` returning `none` (crash) for every fuel. -/
theorem vrp_C2_empty_input_crash (fuel : Nat) :
    mainSchedule ([] : List (Row ℤ)) fuel = none := by
  cases fuel <;> rfl

/-- **C6, counterexample**: on the 2-load table of the spec's own
two-load example the loop is still running after n = 2 iterations (the
run with fuel 2 is a timeout), because the second iteration finalizes
driver 1 and commits no load (`loadsScheduled` stays `[1]`). -/
theorem vrp_C6_counterexample :
    df2z.length = 2 ∧
    (schedRun df2z 2 schedInit).isTimeout = true ∧
    schedStep df2z ⟨[⟨[1], 10, true⟩], [1]⟩ = some ⟨[⟨[1], 20, false⟩], [1]⟩ := by
  decide

/-- **C6, amended**: the loop always terminates, in at most `2·n`
iterations — each iteration either commits one load (at most `n` of
those) or finalizes the single active driver without committing a load
(at most one of those between consecutive commits): with fuel `2·n` the
run never times out. -/
theorem vrp_C6_terminates (df : List (Row α)) (fuel : Nat)
    (hfuel : 2 * df.length ≤ fuel) :
    (schedRun df fuel schedInit).isTimeout = false := by
  refine schedRun_no_timeout fuel schedInit (stInv_init df) ?_
  unfold loopMeasure schedInit
  simp [findIdxSched]
  omega

theorem vrp_C6_terminates_witness :
    2 * df2z.length ≤ 4 ∧ (schedRun df2z 4 schedInit).isTimeout = false :=
  ⟨by decide, vrp_C6_terminates df2z 4 (by decide)⟩

/-- **C9**: at every point during the run at most one driver of the pool
has its `isScheduling` flag set (a driver is created only when none is
active), and once a driver's flag is `false` the driver is never touched
again — its whole record, flag included, survives every later step, so
it is never reconsidered for assignment. -/
theorem vrp_C9_single_active (df : List (Row α)) (s s' : SchedState α)
    (h1 : Reaches df schedInit s) (h2 : Reaches df s s') :
    (s'.drivers.filter fun d => d.isScheduling).length ≤ 1 ∧
    ∀ (j : Nat) (d : Driver α), s.drivers[j]? = some d →
      d.isScheduling = false → s'.drivers[j]? = some d := by
  have hinv := stInv_reaches (stInv_reaches (stInv_init df) h1) h2
  exact ⟨lastActiveOnly_filter_le_one hinv.lastActive,
    fun j d hj hd => reaches_frozen h2 hj hd⟩

theorem vrp_C9_witness :
    ((⟨[⟨[1], (1 : ℤ), true⟩], [1]⟩ : SchedState ℤ).drivers.filter
        (fun d => d.isScheduling)).length ≤ 1 ∧
    ∀ (j : Nat) (d : Driver ℤ), (schedInit : SchedState ℤ).drivers[j]? = some d →
      d.isScheduling = false →
      (⟨[⟨[1], (1 : ℤ), true⟩], [1]⟩ : SchedState ℤ).drivers[j]? = some d :=
  vrp_C9_single_active df1z schedInit ⟨[⟨[1], (1 : ℤ), true⟩], [1]⟩
    (Reaches.refl _)
    (Reaches.step _ _ _ (by decide) (by decide) (Reaches.refl _))

/-! ### The drive-time cap on continuation assignments -/

theorem FoundSpec.dropLast_mem {s : SchedState α} {drivers : List (Driver α)}
    {i : Nat} {driver : Driver α} (h : FoundSpec s drivers i driver)
    {d : Driver α} (hd : d ∈ drivers.dropLast) : d ∈ s.drivers := by
  rcases h with ⟨h1, rfl⟩ | ⟨h1, rfl, rfl, rfl⟩
  · exact (List.dropLast_sublist _).subset hd
  · rw [List.dropLast_concat] at hd
    exact hd

theorem capInv_step {df : List (Row α)} {s s' : SchedState α}
    (hsum : RtSums df) (hnn : RtNonneg df) (hinv : StInv df s)
    (hcap : CapInv s) (hstep : schedStep df s = some s') : CapInv s' := by
  obtain ⟨drivers, i, driver, hfound, haux⟩ := schedStep_elim hstep
  have hget := hfound.getElem
  have hlast := hfound.last hinv.lastActive
  rcases schedStepAux_cases haux with
    ⟨row, hl, hfr, rfl⟩ | ⟨last, rt, hne, hgl, hfn, rfl⟩ |
      ⟨last, row, hne, hgl, hfn, hlr, rfl⟩
  · intro d hd hact hlen
    rw [(set_last_eq hget hlast _).2] at hd
    rcases List.mem_append.mp hd with hd1 | hd1
    · exact hcap d (hfound.dropLast_mem hd1) hact hlen
    · rw [List.mem_singleton.mp hd1] at hlen
      rw [hl] at hlen
      simp at hlen
  · intro d hd hact hlen
    rw [(set_last_eq hget hlast _).2] at hd
    rcases List.mem_append.mp hd with hd1 | hd1
    · exact hcap d (hfound.dropLast_mem hd1) hact hlen
    · rw [List.mem_singleton.mp hd1]
      obtain ⟨row, hlr, hrtmem, hrtnot, hfeas⟩ := findNextSchedule_commit hfn
      have hrow := (lookupRow_some hlr).1
      have hs := hsum row hrow rt hrtmem
      have hn := (hnn row hrow rt hrtmem).1
      simp only []
      have : driver.driveHours + rt.currentDropoffToNextDropoff ≤
          driver.driveHours + rt.currentDropoffToNextDropoffToHome := by
        refine add_le_add_left ?_ driver.driveHours
        rw [hs]
        exact le_add_of_nonneg_right hn
      exact le_trans this hfeas
  · intro d hd hact hlen
    rw [(set_last_eq hget hlast _).2] at hd
    rcases List.mem_append.mp hd with hd1 | hd1
    · exact hcap d (hfound.dropLast_mem hd1) hact hlen
    · rw [List.mem_singleton.mp hd1] at hact
      simp at hact

theorem capInv_reaches {df : List (Row α)} {s s' : SchedState α}
    (hsum : RtSums df) (hnn : RtNonneg df) (h : Reaches df s s')
    (hinv : StInv df s) (hcap : CapInv s) : CapInv s' := by
  induction h with
  | refl s => exact hcap
  | step s s1 s2 hc hstep hr ih =>
    exact ih (stInv_step hinv hc hstep) (capInv_step hsum hnn hinv hcap hstep)

/-- **C1, amended**: at the moment each new load is appended to a
driver's route by a *continuation* step — i.e. for every active driver
that has received a second-or-later load — `driveHours` never exceeds
12.  (The first-load assignment step is excluded: it performs no cap
check, see the counterexample.)  The hypotheses `RtSums`/`RtNonneg`
hold of every table the geometric precomputation builds. -/
theorem vrp_C1_amended (df : List (Row α)) (hsum : RtSums df)
    (hnn : RtNonneg df) (s : SchedState α) (h : Reaches df schedInit s) :
    ∀ d ∈ s.drivers, d.isScheduling = true → 2 ≤ d.loads.length →
      d.driveHours ≤ 12 := by
  have hcap : CapInv (schedInit : SchedState α) := by
    intro d hd
    simp [schedInit] at hd
  exact capInv_reaches hsum hnn h (stInv_init df) hcap

theorem vrp_C1_amended_witness :
    ((⟨[1, 2], (2 : ℤ), true⟩ : Driver ℤ)).driveHours ≤ 12 :=
  vrp_C1_amended df3z (by unfold RtSums; decide) (by unfold RtNonneg; decide)
    ⟨[⟨[1, 2], (2 : ℤ), true⟩], [1, 2]⟩
    (Reaches.step schedInit ⟨[⟨[1], 1, true⟩], [1]⟩
      ⟨[⟨[1, 2], (2 : ℤ), true⟩], [1, 2]⟩ (by decide) (by decide)
      (Reaches.step ⟨[⟨[1], 1, true⟩], [1]⟩ ⟨[⟨[1, 2], (2 : ℤ), true⟩], [1, 2]⟩
        ⟨[⟨[1, 2], (2 : ℤ), true⟩], [1, 2]⟩ (by decide) (by decide)
        (Reaches.refl _)))
    ⟨[1, 2], (2 : ℤ), true⟩ (by decide) rfl (by decide)

/-- **C4**: on a continuation step `findNextSchedule` considers exactly
the unassigned candidate edges of the last load's row, picks the first
edge of minimum `totalHours` among them, and its entire outcome is the
feasibility test on that single candidate: `None` (driver finalized by
the caller) exactly when `driveHours + totalHours > 12`, otherwise that
candidate — no other edge influences the outcome. -/
theorem vrp_C4_single_candidate (df : List (Row α)) (cl : Nat)
    (driver : Driver α) (ls : List Nat) (row : Row α) (m : RouteTime α)
    (hrow : lookupRow df cl = some row)
    (hmin : minByKey (fun obj => obj.currentDropoffToNextDropoffToHome)
        (row.routeTimes.filter fun obj => decide (obj.loadNumber ∉ ls)) = some m) :
    m ∈ row.routeTimes.filter (fun obj => decide (obj.loadNumber ∉ ls)) ∧
    (∀ x ∈ row.routeTimes.filter (fun obj => decide (obj.loadNumber ∉ ls)),
      m.currentDropoffToNextDropoffToHome ≤ x.currentDropoffToNextDropoffToHome) ∧
    findNextSchedule cl df driver ls =
      (if driver.driveHours + m.currentDropoffToNextDropoffToHome > 12
        then some none else some (some m)) := by
  refine ⟨minByKey_mem hmin, minByKey_le hmin, ?_⟩
  simp only [findNextSchedule, hrow, hmin]

theorem vrp_C4_witness :
    RouteTime.make 2 (10 : ℤ) 20 ∈
      (List.filter (fun obj => decide (obj.loadNumber ∉ [1]))
        (Row.routeTimes ⟨1, 10, 10, [RouteTime.make 2 10 20]⟩)) ∧
    (∀ x ∈ (List.filter (fun obj => decide (obj.loadNumber ∉ [1]))
        (Row.routeTimes ⟨1, 10, 10, [RouteTime.make 2 10 20]⟩)),
      (RouteTime.make 2 (10 : ℤ) 20).currentDropoffToNextDropoffToHome ≤
        x.currentDropoffToNextDropoffToHome) ∧
    findNextSchedule 1 df2z ⟨[1], (10 : ℤ), true⟩ [1] =
      (if (⟨[1], (10 : ℤ), true⟩ : Driver ℤ).driveHours +
          (RouteTime.make 2 (10 : ℤ) 20).currentDropoffToNextDropoffToHome > 12
        then some none else some (some (RouteTime.make 2 10 20))) :=
  vrp_C4_single_candidate df2z 1 ⟨[1], 10, true⟩ [1]
    ⟨1, 10, 10, [RouteTime.make 2 10 20]⟩ (RouteTime.make 2 10 20)
    (by decide) (by decide)

/-! ### Partition and progress -/

theorem mem_of_getLast_some {β : Type} {l : List β} {a : β}
    (h : l.getLast? = some a) : a ∈ l := by
  rw [List.getLast?_eq_getElem?] at h
  exact of_getElem?_some h

theorem lookupRow_of_mem_ids {df : List (Row α)} {l : Nat} (h : l ∈ dfIds df) :
    ∃ r, lookupRow df l = some r ∧ r ∈ df ∧ r.loadNumber = l := by
  cases hlr : lookupRow df l with
  | none => exact absurd h (lookupRow_eq_none.mp hlr)
  | some r => exact ⟨r, rfl, (lookupRow_some hlr).1, (lookupRow_some hlr).2⟩

theorem idsInv_step {df : List (Row α)} {s s' : SchedState α}
    (hcl : TargetsClosed df) (hstep : schedStep df s = some s')
    (hids : IdsInv df s) : IdsInv df s' := by
  obtain ⟨drivers, i, driver, hfound, haux⟩ := schedStep_elim hstep
  rcases schedStepAux_cases haux with
    ⟨row, hl, hfr, rfl⟩ | ⟨last, rt, hne, hgl, hfn, rfl⟩ |
      ⟨last, row, hne, hgl, hfn, hlr, rfl⟩
  · intro l hl'
    rcases List.mem_append.mp hl' with h1 | h1
    · exact hids l h1
    · rw [List.mem_singleton.mp h1]
      exact List.mem_map_of_mem Row.loadNumber (firstRoute_spec hfr).1
  · intro l hl'
    rcases List.mem_append.mp hl' with h1 | h1
    · exact hids l h1
    · rw [List.mem_singleton.mp h1]
      obtain ⟨row, hlr, hrtmem, _, _⟩ := findNextSchedule_commit hfn
      exact hcl row (lookupRow_some hlr).1 rt hrtmem
  · exact hids

theorem idsInv_reaches {df : List (Row α)} {s s' : SchedState α}
    (hcl : TargetsClosed df) (h : Reaches df s s') (hids : IdsInv df s) :
    IdsInv df s' := by
  induction h with
  | refl s => exact hids
  | step s s1 s2 hc hstep hr ih => exact ih (idsInv_step hcl hstep hids)

theorem idsInv_init (df : List (Row α)) : IdsInv df (schedInit : SchedState α) := by
  intro l hl
  simp [schedInit] at hl

theorem exists_unscheduled {df : List (Row α)} {ls : List Nat}
    (hnd : (dfIds df).Nodup) (hlen : ls.length < df.length) :
    ∃ id ∈ dfIds df, id ∉ ls := by
  by_contra hcon
  push_neg at hcon
  have hsp := List.subperm_of_subset hnd hcon
  have hle := hsp.length_le
  simp only [dfIds, List.length_map] at hle
  omega

theorem continuation_candidates_ne_nil {df : List (Row α)} {s : SchedState α}
    (hnd : (dfIds df).Nodup) (hcm : TargetsComplete df)
    (hinv : StInv df s) (hids : IdsInv df s)
    (hcond : s.loadsScheduled.length < df.length)
    {driver : Driver α} (hmem : driver ∈ s.drivers)
    {last : Nat} (hgl : driver.loads.getLast? = some last) :
    ∃ rowL, lookupRow df last = some rowL ∧
      rowL.routeTimes.filter
        (fun obj => decide (obj.loadNumber ∉ s.loadsScheduled)) ≠ [] := by
  have hlin : last ∈ s.loadsScheduled := by
    rw [← hinv.joinEq]
    exact List.mem_flatten.mpr
      ⟨driver.loads, List.mem_map_of_mem Driver.loads hmem, mem_of_getLast_some hgl⟩
  obtain ⟨rowL, hlrowEq, hlrowMem, hlrowNum⟩ := lookupRow_of_mem_ids (hids last hlin)
  obtain ⟨id, hidmem, hidnot⟩ := exists_unscheduled hnd hcond
  obtain ⟨rowId, hrowId, hrowIdNum⟩ := List.mem_map.mp hidmem
  have hne : rowL.loadNumber ≠ rowId.loadNumber := by
    rw [hlrowNum, hrowIdNum]
    intro he
    rw [he] at hlin
    exact hidnot hlin
  obtain ⟨rt, hrtmem, hrtnum⟩ := hcm rowL hlrowMem rowId hrowId hne
  refine ⟨rowL, hlrowEq, List.ne_nil_of_mem (List.mem_filter.mpr ⟨hrtmem, ?_⟩)⟩
  refine decide_eq_true ?_
  rw [hrtnum, hrowIdNum]
  exact hidnot

theorem findNextSchedule_eq {cl : Nat} {df : List (Row α)} {driver : Driver α}
    {ls : List Nat} {row : Row α} {m : RouteTime α}
    (hrow : lookupRow df cl = some row)
    (hmin : minByKey (fun obj => obj.currentDropoffToNextDropoffToHome)
        (row.routeTimes.filter fun obj => decide (obj.loadNumber ∉ ls)) = some m) :
    findNextSchedule cl df driver ls =
      (if driver.driveHours + m.currentDropoffToNextDropoffToHome > 12
        then some none else some (some m)) := by
  simp only [findNextSchedule, hrow, hmin]

theorem schedStep_progress {df : List (Row α)} {s : SchedState α}
    (hnd : (dfIds df).Nodup) (hcm : TargetsComplete df)
    (hinv : StInv df s) (hids : IdsInv df s)
    (hcond : s.loadsScheduled.length < df.length) :
    ∃ s', schedStep df s = some s' := by
  obtain ⟨id, hidmem, hidnot⟩ := exists_unscheduled hnd hcond
  obtain ⟨rowId, hrowIdMem, hrowIdNum⟩ := List.mem_map.mp hidmem
  have hfr : ∃ row, firstRoute df s.loadsScheduled = some row := by
    cases hf : firstRoute df s.loadsScheduled with
    | some row => exact ⟨row, rfl⟩
    | none =>
      exfalso
      unfold firstRoute at hf
      rw [minByKey_eq_none] at hf
      have hmm : rowId ∈ df.filter fun r => decide (r.loadNumber ∉ s.loadsScheduled) :=
        List.mem_filter.mpr ⟨hrowIdMem, decide_eq_true (by rw [hrowIdNum]; exact hidnot)⟩
      rw [hf] at hmm
      cases hmm
  unfold schedStep
  cases hfind : findIdxSched s.drivers with
  | none =>
    obtain ⟨row, hfrow⟩ := hfr
    simp only []
    unfold schedStepAux
    rw [if_pos (show (Driver.new : Driver α).loads = [] from rfl)]
    rw [hfrow]
    exact ⟨_, rfl⟩
  | some p =>
    have hpmem : p.2 ∈ s.drivers :=
      of_getElem?_some (findIdxSched_some (by rw [hfind])).1
    have hpne : p.2.loads ≠ [] := hinv.loadsNe p.2 hpmem
    simp only []
    unfold schedStepAux
    rw [if_neg hpne]
    cases hgl : p.2.loads.getLast? with
    | none => exact absurd (List.getLast?_eq_none_iff.mp hgl) hpne
    | some last =>
      simp only []
      obtain ⟨rowL, hrowL, hcand⟩ :=
        continuation_candidates_ne_nil hnd hcm hinv hids hcond hpmem hgl
      have hmin : ∃ m, minByKey (fun obj => obj.currentDropoffToNextDropoffToHome)
          (rowL.routeTimes.filter
            fun obj => decide (obj.loadNumber ∉ s.loadsScheduled)) = some m := by
        cases hm : minByKey (fun obj => obj.currentDropoffToNextDropoffToHome)
            (rowL.routeTimes.filter
              fun obj => decide (obj.loadNumber ∉ s.loadsScheduled)) with
        | some m => exact ⟨m, rfl⟩
        | none => exact absurd (minByKey_eq_none _ _ |>.mp hm) hcand
      obtain ⟨m, hm⟩ := hmin
      rw [findNextSchedule_eq hrowL hm]
      by_cases hif : p.2.driveHours + m.currentDropoffToNextDropoffToHome > 12
      · rw [if_pos hif]
        simp only []
        rw [hrowL]
        exact ⟨_, rfl⟩
      · rw [if_neg hif]
        exact ⟨_, rfl⟩

theorem finalizeLast_elim {df : List (Row α)} {s : SchedState α}
    {out : List (Driver α)} (h : finalizeLast df s = some out) :
    ∃ i driver lastl row, findIdxSched s.drivers = some (i, driver) ∧
      driver.loads.getLast? = some lastl ∧ lookupRow df lastl = some row ∧
      out = s.drivers.set i
        { driver with
            driveHours := driver.driveHours + row.dropoffToHome,
            isScheduling := false } := by
  unfold finalizeLast at h
  cases hf : findIdxSched s.drivers with
  | none => rw [hf] at h; cases h
  | some p =>
    rw [hf] at h
    obtain ⟨i, driver⟩ := p
    simp only [] at h
    cases hgl : driver.loads.getLast? with
    | none => rw [hgl] at h; cases h
    | some lastl =>
      rw [hgl] at h
      simp only [] at h
      cases hlr : lookupRow df lastl with
      | none => rw [hlr] at h; cases h
      | some row =>
        rw [hlr] at h
        exact ⟨i, driver, lastl, row, rfl, hgl, hlr, (Option.some.inj h).symm⟩

theorem mainSchedule_elim {df : List (Row α)} {fuel : Nat}
    {out : List (Driver α)} (h : mainSchedule df fuel = some out) :
    ∃ s, schedRun df fuel schedInit = .done s ∧ finalizeLast df s = some out := by
  unfold mainSchedule at h
  cases hr : schedRun df fuel schedInit with
  | done s =>
    rw [hr] at h
    exact ⟨s, rfl, h⟩
  | crashed => rw [hr] at h; cases h
  | timeout s => rw [hr] at h; cases h

/-- **C3**: with unique load identifiers, when the scheduler finishes
(the loop exits and the closing step succeeds), the concatenation of all
drivers' routes is a permutation of the table's load-number list — every
load appears in exactly one driver's route, no duplicates, no
omissions.  (`TargetsClosed` holds of every table the precomputation
builds: edges only point at loads of the table.) -/
theorem vrp_C3_partition (df : List (Row α)) (hnd : (dfIds df).Nodup)
    (hcl : TargetsClosed df) (fuel : Nat) (out : List (Driver α))
    (hrun : mainSchedule df fuel = some out) :
    ((out.map Driver.loads).flatten).Perm (dfIds df) := by
  obtain ⟨s, hdone, hfin⟩ := mainSchedule_elim hrun
  obtain ⟨hreach, hncond⟩ := schedRun_done_reaches hdone
  have hinv := stInv_reaches (stInv_init df) hreach
  have hids := idsInv_reaches hcl hreach (idsInv_init df)
  have hsp : s.loadsScheduled.Subperm (dfIds df) :=
    List.subperm_of_subset hinv.nodup hids
  have hperm : s.loadsScheduled.Perm (dfIds df) := by
    refine hsp.perm_of_length_le ?_
    simp only [dfIds, List.length_map]
    omega
  obtain ⟨i, driver, lastl, row, hfind, hgl, hlr, rfl⟩ := finalizeLast_elim hfin
  have hget := (findIdxSched_some hfind).1
  have hlast : i + 1 = s.drivers.length :=
    hinv.lastActive i driver hget (findIdxSched_some hfind).2
  obtain ⟨A, hA1, hA2⟩ := flatten_set_last hget hlast
  rw [hA2]
  show (A ++ driver.loads).Perm (dfIds df)
  have hAs : A ++ driver.loads = s.loadsScheduled := by
    rw [← hA1]
    exact hinv.joinEq
  rw [hAs]
  exact hperm

theorem vrp_C3_witness :
    (([(⟨[1], (2 : ℤ), false⟩ : Driver ℤ)].map Driver.loads).flatten).Perm
      (dfIds df1z) :=
  vrp_C3_partition df1z (by decide) (by unfold TargetsClosed; decide) 2
    [⟨[1], 2, false⟩] (by decide)

/-- **C10**: with unique load identifiers, whenever the loop condition
still holds at a reachable state, the candidate list `findNextSchedule`
filters for the acting driver's last load is non-empty (so taking the
minimum is well-defined) and the whole iteration cannot crash; and at
loop exit on a non-empty input, `findSchedulingDriver` returns a driver
with a non-empty route and the post-loop closing step succeeds. -/
theorem vrp_C10_min_defined (df : List (Row α)) (hnd : (dfIds df).Nodup)
    (hcl : TargetsClosed df) (hcm : TargetsComplete df)
    (s : SchedState α) (h : Reaches df schedInit s) :
    (s.loadsScheduled.length < df.length →
      (∀ (i : Nat) (driver : Driver α) (last : Nat),
        findIdxSched s.drivers = some (i, driver) →
        driver.loads.getLast? = some last →
        ∃ row, lookupRow df last = some row ∧
          row.routeTimes.filter
            (fun obj => decide (obj.loadNumber ∉ s.loadsScheduled)) ≠ []) ∧
      schedStep df s ≠ none) ∧
    (¬ s.loadsScheduled.length < df.length → df ≠ [] →
      ∃ driver, findSchedulingDriver s.drivers = some driver ∧
        driver.loads ≠ [] ∧ finalizeLast df s ≠ none) := by
  have hinv := stInv_reaches (stInv_init df) h
  have hids := idsInv_reaches hcl h (idsInv_init df)
  constructor
  · intro hcond
    constructor
    · intro i driver last hfind hgl
      exact continuation_candidates_ne_nil hnd hcm hinv hids hcond
        (of_getElem?_some (findIdxSched_some hfind).1) hgl
    · obtain ⟨s', hs'⟩ := schedStep_progress hnd hcm hinv hids hcond
      intro heq
      rw [hs'] at heq
      cases heq
  · intro hncond hdfne
    have hsome : (findIdxSched s.drivers).isSome = true := by
      rcases hinv.condOrActive with hc | hc | hc
      · exact absurd hc hncond
      · exact absurd hc hdfne
      · exact hc
    cases hfind : findIdxSched s.drivers with
    | none => rw [hfind] at hsome; cases hsome
    | some p =>
      have hpmem : p.2 ∈ s.drivers :=
        of_getElem?_some (findIdxSched_some (by rw [hfind])).1
      have hpne : p.2.loads ≠ [] := hinv.loadsNe p.2 hpmem
      cases hgl : p.2.loads.getLast? with
      | none => exact absurd (List.getLast?_eq_none_iff.mp hgl) hpne
      | some last =>
        have hlin : last ∈ s.loadsScheduled := by
          rw [← hinv.joinEq]
          exact List.mem_flatten.mpr
            ⟨p.2.loads, List.mem_map_of_mem Driver.loads hpmem,
              mem_of_getLast_some hgl⟩
        obtain ⟨rowL, hlrowEq, _, _⟩ := lookupRow_of_mem_ids (hids last hlin)
        refine ⟨p.2, ?_, hpne, ?_⟩
        · rw [findSchedulingDriver_eq, hfind]
          rfl
        · unfold finalizeLast
          rw [hfind]
          simp only []
          rw [hgl]
          simp only []
          rw [hlrowEq]
          simp

theorem vrp_C10_witness :
    (s1z.loadsScheduled.length < df1z.length →
      (∀ (i : Nat) (driver : Driver ℤ) (last : Nat),
        findIdxSched s1z.drivers = some (i, driver) →
        driver.loads.getLast? = some last →
        ∃ row, lookupRow df1z last = some row ∧
          row.routeTimes.filter
            (fun obj => decide (obj.loadNumber ∉ s1z.loadsScheduled)) ≠ []) ∧
      schedStep df1z s1z ≠ none) ∧
    (¬ s1z.loadsScheduled.length < df1z.length → df1z ≠ [] →
      ∃ driver, findSchedulingDriver s1z.drivers = some driver ∧
        driver.loads ≠ [] ∧ finalizeLast df1z s1z ≠ none) :=
  vrp_C10_min_defined df1z (by decide) (by unfold TargetsClosed; decide)
    (by unfold TargetsComplete; decide) s1z
    (Reaches.step schedInit s1z s1z (by decide) (by decide) (Reaches.refl _))

/-! ### Evaluating the geometric pipeline on concrete inputs -/

theorem sqrt360000 : Real.sqrt 360000 = 600 := by
  rw [show (360000 : ℝ) = 600 ^ 2 by norm_num]
  exact Real.sqrt_sq (by norm_num)

theorem sqrt1440000 : Real.sqrt 1440000 = 1200 := by
  rw [show (1440000 : ℝ) = 1200 ^ 2 by norm_num]
  exact Real.sqrt_sq (by norm_num)

theorem sqrt608400 : Real.sqrt 608400 = 780 := by
  rw [show (608400 : ℝ) = 780 ^ 2 by norm_num]
  exact Real.sqrt_sq (by norm_num)

/-- The precomputed table of the two-load example: `homeToDropoff` 10 h
and 20 h, edge 1→2 with transition 10 h, return 20 h, total 30 h. -/
theorem buildRows_rawPair :
    buildRows rawPair =
      [⟨1, 10, 10, [⟨2, 10, 20, 30⟩]⟩, ⟨2, 20, 20, [⟨1, 30, 10, 40⟩]⟩] := by
  norm_num [buildRows, rawPair, addHome, buildRouteTimes, RouteTime.make,
    calculateHours, List.enum, List.enumFrom, List.filterMap_cons,
    List.filterMap_nil, sqrt360000, sqrt1440000, Real.sqrt_zero]

/-- The precomputed table of the single oversized load: 13 h out, 13 h
back, no candidate edges. -/
theorem buildRows_rawOversized :
    buildRows rawOversized = [⟨1, 13, 13, []⟩] := by
  norm_num [buildRows, rawOversized, addHome, buildRouteTimes,
    RouteTime.make, calculateHours, List.enum, List.enumFrom,
    List.filterMap_cons, List.filterMap_nil, sqrt608400, Real.sqrt_zero]

/-- **C1, counterexample**: on the single load with pickup `(0,0)` and
dropoff `(780,0)` the very first assignment step appends the load and
sets the driver's `driveHours` to 13 — no cap check happens on the
first-load step, so "driveHours never exceeds 12 at the moment each new
load is appended, including the first-load assignment step" is false. -/
theorem vrp_C1_counterexample :
    schedStep (buildRows rawOversized) schedInit =
      some ⟨[⟨[1], 13, true⟩], [1]⟩ ∧ ¬ ((13 : ℝ) ≤ 12) := by
  rw [buildRows_rawOversized]
  constructor
  · norm_num [schedStep, schedStepAux, schedInit, findIdxSched, firstRoute,
      minByKey, applySchedule, Driver.new, List.filter_cons, List.filter_nil]
  · norm_num

/-- **C8**: on the concrete two-load input (L1: pickup `(0,0)`, dropoff
`(600,0)`; L2: pickup `(600,0)`, dropoff `(1200,0)`; home `(0,0)`), the
precomputed table gives L1 `homeToDropoffHours` 10 and the edge L1→L2
`totalHours` 30; since 10 + 30 > 12 the continuation is rejected, and
the run produces exactly two drivers, the first with route `[1]`, the
second with route `[2]`. -/
theorem vrp_C8_two_load_example :
    buildRows rawPair =
      [⟨1, 10, 10, [⟨2, 10, 20, 30⟩]⟩, ⟨2, 20, 20, [⟨1, 30, 10, 40⟩]⟩] ∧
    (10 : ℝ) + 30 > 12 ∧
    mainSchedule (buildRows rawPair) 4 =
      some [⟨[1], 20, false⟩, ⟨[2], 40, false⟩] := by
  refine ⟨buildRows_rawPair, by norm_num, ?_⟩
  rw [buildRows_rawPair]
  norm_num [mainSchedule, schedRun, schedStep, schedStepAux, schedInit,
    findIdxSched, firstRoute, minByKey, findNextSchedule, lookupRow,
    applySchedule, finalizeLast, Driver.new, List.filter_cons,
    List.filter_nil]

/-! ### Geometry: leg lengths and the triangle inequality -/

theorem calculateHours_foldl_nonneg :
    ∀ (routes : List ((ℝ × ℝ) × (ℝ × ℝ))) (acc : ℝ), 0 ≤ acc →
      0 ≤ routes.foldl
        (fun total route =>
          total + Real.sqrt
            ((route.2.1 - route.1.1) ^ 2 + (route.2.2 - route.1.2) ^ 2)) acc
  | [], acc, h => h
  | r :: rs, acc, h =>
    calculateHours_foldl_nonneg rs _
      (add_nonneg h (Real.sqrt_nonneg _))

theorem calculateHours_nonneg (routes : List ((ℝ × ℝ) × (ℝ × ℝ))) :
    0 ≤ calculateHours routes :=
  div_nonneg (calculateHours_foldl_nonneg routes 0 le_rfl) (by norm_num)

theorem calculateHours_single (a b : ℝ × ℝ) :
    calculateHours [(a, b)] = legLength a b / 60 := by
  simp [calculateHours, legLength]

theorem calculateHours_pair (a b c d : ℝ × ℝ) :
    calculateHours [(a, b), (c, d)] = (legLength a b + legLength c d) / 60 := by
  simp [calculateHours, legLength]

theorem legLength_nonneg (p q : ℝ × ℝ) : 0 ≤ legLength p q :=
  Real.sqrt_nonneg _

theorem legLength_comm (p q : ℝ × ℝ) : legLength p q = legLength q p := by
  unfold legLength
  rw [show (q.1 - p.1) ^ 2 + (q.2 - p.2) ^ 2
      = (p.1 - q.1) ^ 2 + (p.2 - q.2) ^ 2 by ring]

theorem legLength_eq_dist (p q : ℝ × ℝ) :
    legLength p q = dist (E2 q) (E2 p) := by
  refine Eq.trans ?_ (EuclideanSpace.dist_eq _ _).symm
  rw [Fin.sum_univ_two]
  simp only [E2, WithLp.equiv_symm_pi_apply, Matrix.cons_val_zero,
    Matrix.cons_val_one, Matrix.head_cons, Real.dist_eq, sq_abs]
  rfl

theorem legLength_triangle (p q r : ℝ × ℝ) :
    legLength p r ≤ legLength p q + legLength q r := by
  rw [legLength_eq_dist p r, legLength_eq_dist p q, legLength_eq_dist q r]
  calc dist (E2 r) (E2 p) ≤ dist (E2 r) (E2 q) + dist (E2 q) (E2 p) :=
        dist_triangle _ _ _
    _ = dist (E2 q) (E2 p) + dist (E2 r) (E2 q) := by rw [add_comm]

/-! ### Characterizing `buildRows` -/

theorem zip_enumFrom_map {β γ : Type} (l : List β) (g : Nat × β → γ) :
    ∀ n, l.zip ((l.enumFrom n).map g) =
      (l.enumFrom n).map fun cur => (cur.2, g cur) := by
  induction l with
  | nil => intro n; rfl
  | cons a t ih =>
    intro n
    rw [List.enumFrom_cons, List.map_cons, List.zip_cons_cons, List.map_cons,
      ih (n + 1)]

theorem buildRows_eq (loads : List RawLoad) :
    buildRows loads =
      (loads.map addHome).enum.map (rowOfEnum (loads.map addHome)) := by
  unfold buildRows buildRouteTimes
  simp only []
  rw [show List.enum (loads.map addHome)
      = List.enumFrom 0 (loads.map addHome) from rfl]
  rw [zip_enumFrom_map, List.map_map]
  rfl

theorem mem_buildRows {loads : List RawLoad} {row : Row ℝ} :
    row ∈ buildRows loads ↔
      ∃ cur ∈ (loads.map addHome).enum,
        row = rowOfEnum (loads.map addHome) cur := by
  rw [buildRows_eq, List.mem_map]
  constructor
  · rintro ⟨cur, h1, h2⟩
    exact ⟨cur, h1, h2.symm⟩
  · rintro ⟨cur, h1, h2⟩
    exact ⟨cur, h1, h2.symm⟩

theorem mem_rowTimes_rowOfEnum {dfh : List DfRow} {cur : Nat × DfRow}
    {rt : RouteTime ℝ} :
    rt ∈ (rowOfEnum dfh cur).routeTimes ↔
      ∃ next ∈ dfh.enum, cur.1 ≠ next.1 ∧
        rt = RouteTime.make next.2.loadNumber
          (calculateHours
            [(cur.2.dropoff, next.2.pickup), (next.2.pickup, next.2.dropoff)])
          (calculateHours [(next.2.dropoff, next.2.home)]) := by
  unfold rowOfEnum
  rw [List.mem_filterMap]
  constructor
  · rintro ⟨next, h1, h2⟩
    by_cases hne : cur.1 ≠ next.1
    · rw [if_pos hne] at h2
      exact ⟨next, h1, hne, (Option.some.inj h2).symm⟩
    · rw [if_neg hne] at h2
      cases h2
  · rintro ⟨next, h1, hne, h2⟩
    exact ⟨next, h1, by rw [if_pos hne, h2]⟩

theorem buildRows_ids (loads : List RawLoad) :
    dfIds (buildRows loads) = loads.map RawLoad.loadNumber := by
  rw [dfIds, buildRows_eq, List.map_map]
  have h1 : (Row.loadNumber ∘ rowOfEnum (loads.map addHome)) =
      (DfRow.loadNumber ∘ Prod.snd) := by
    funext cur
    rfl
  rw [h1, show (DfRow.loadNumber ∘ Prod.snd : Nat × DfRow → Nat)
      = fun p => DfRow.loadNumber p.2 from rfl]
  rw [show ((loads.map addHome).enum.map fun p => DfRow.loadNumber p.2)
      = ((loads.map addHome).enum.map Prod.snd).map DfRow.loadNumber by
    rw [List.map_map]; rfl]
  rw [List.enum_map_snd, List.map_map]
  rfl

/-! ### The predicates hold of every geometric table -/

theorem addHome_ids (loads : List RawLoad) :
    (loads.map addHome).map DfRow.loadNumber = loads.map RawLoad.loadNumber := by
  rw [List.map_map]
  rfl

theorem addHome_home {loads : List RawLoad} {d : DfRow}
    (h : d ∈ loads.map addHome) : d.home = (0, 0) := by
  obtain ⟨raw, _, rfl⟩ := List.mem_map.mp h
  rfl

theorem nodup_map_index_eq {β : Type} {l : List β} {f : β → Nat}
    (h : (l.map f).Nodup) {i j : Nat} {a b : β}
    (ha : l[i]? = some a) (hb : l[j]? = some b) (hf : f a = f b) : i = j := by
  obtain ⟨hi, rfl⟩ := List.getElem?_eq_some_iff.mp ha
  obtain ⟨hj, rfl⟩ := List.getElem?_eq_some_iff.mp hb
  have hi' : i < (l.map f).length := by simpa using hi
  have hj' : j < (l.map f).length := by simpa using hj
  refine (@List.Nodup.getElem_inj_iff _ _ h _ hi' _ hj').mp ?_
  rw [List.getElem_map, List.getElem_map]
  exact hf

theorem filterMap_ite {β γ : Type} (p : β → Prop) [DecidablePred p]
    (g : β → γ) (l : List β) :
    (l.filterMap fun x => if p x then some (g x) else none) =
      (l.filter fun x => decide (p x)).map g := by
  induction l with
  | nil => rfl
  | cons a t ih =>
    by_cases h : p a
    · simp only [List.filterMap_cons, List.filter_cons, if_pos h,
        decide_eq_true h, List.map_cons, ih]
      rw [if_pos trivial]
      rfl
    · simp only [List.filterMap_cons, List.filter_cons, if_neg h,
        decide_eq_false h, List.map_nil, ih]
      rfl

theorem buildRows_RtSums (loads : List RawLoad) : RtSums (buildRows loads) := by
  intro row hrow rt hrt
  obtain ⟨cur, hcur, rfl⟩ := mem_buildRows.mp hrow
  obtain ⟨next, hnext, hne, rfl⟩ := mem_rowTimes_rowOfEnum.mp hrt
  rfl

theorem buildRows_RtNonneg (loads : List RawLoad) : RtNonneg (buildRows loads) := by
  intro row hrow rt hrt
  obtain ⟨cur, hcur, rfl⟩ := mem_buildRows.mp hrow
  obtain ⟨next, hnext, hne, rfl⟩ := mem_rowTimes_rowOfEnum.mp hrt
  exact ⟨calculateHours_nonneg _, calculateHours_nonneg _⟩

theorem buildRows_TargetsClosed (loads : List RawLoad) :
    TargetsClosed (buildRows loads) := by
  intro row hrow rt hrt
  obtain ⟨cur, hcur, rfl⟩ := mem_buildRows.mp hrow
  obtain ⟨next, hnext, hne, rfl⟩ := mem_rowTimes_rowOfEnum.mp hrt
  rw [buildRows_ids]
  have h2 : next.2 ∈ loads.map addHome :=
    of_getElem?_some (List.mem_enum_iff_getElem?.mp hnext)
  obtain ⟨raw, hraw, heq⟩ := List.mem_map.mp h2
  refine List.mem_map.mpr ⟨raw, hraw, ?_⟩
  show raw.loadNumber = next.2.loadNumber
  rw [← heq]
  rfl

theorem buildRows_TargetsComplete (loads : List RawLoad) :
    TargetsComplete (buildRows loads) := by
  intro row hrow row' hrow' hne
  obtain ⟨cur, hcur, rfl⟩ := mem_buildRows.mp hrow
  obtain ⟨cur', hcur', rfl⟩ := mem_buildRows.mp hrow'
  have hne' : cur.1 ≠ cur'.1 := by
    intro he
    apply hne
    have h1 := List.mem_enum_iff_getElem?.mp hcur
    have h2 := List.mem_enum_iff_getElem?.mp hcur'
    rw [he, h2] at h1
    have h3 : cur'.2 = cur.2 := Option.some.inj h1
    show (rowOfEnum _ cur).loadNumber = (rowOfEnum _ cur').loadNumber
    unfold rowOfEnum
    rw [h3]
  exact ⟨RouteTime.make cur'.2.loadNumber
    (calculateHours
      [(cur.2.dropoff, cur'.2.pickup), (cur'.2.pickup, cur'.2.dropoff)])
    (calculateHours [(cur'.2.dropoff, cur'.2.home)]),
    mem_rowTimes_rowOfEnum.mpr ⟨cur', hcur', hne', rfl⟩, rfl⟩

theorem buildRows_TargetsNodup (loads : List RawLoad)
    (hnd : (loads.map RawLoad.loadNumber).Nodup) :
    TargetsNodup (buildRows loads) := by
  intro row hrow
  obtain ⟨cur, hcur, rfl⟩ := mem_buildRows.mp hrow
  show (((loads.map addHome).enum.filterMap fun next =>
      if cur.1 ≠ next.1 then
        some (RouteTime.make next.2.loadNumber
          (calculateHours
            [(cur.2.dropoff, next.2.pickup), (next.2.pickup, next.2.dropoff)])
          (calculateHours [(next.2.dropoff, next.2.home)]))
      else none).map RouteTime.loadNumber).Nodup
  rw [List.map_filterMap]
  have hfun : (fun (next : Nat × DfRow) => Option.map RouteTime.loadNumber
      (if cur.1 ≠ next.1 then
        some (RouteTime.make next.2.loadNumber
          (calculateHours
            [(cur.2.dropoff, next.2.pickup), (next.2.pickup, next.2.dropoff)])
          (calculateHours [(next.2.dropoff, next.2.home)]))
      else none)) =
      (fun (next : Nat × DfRow) =>
        if cur.1 ≠ next.1 then some next.2.loadNumber else none) := by
    funext next
    by_cases h : cur.1 ≠ next.1
    · rw [if_pos h, if_pos h]
      rfl
    · rw [if_neg h, if_neg h]
      rfl
  rw [hfun, filterMap_ite (fun next => cur.1 ≠ next.1)
    (fun (next : Nat × DfRow) => next.2.loadNumber)]
  refine List.Nodup.sublist ((List.filter_sublist _).map _) ?_
  have : ((loads.map addHome).enum.map
      fun (next : Nat × DfRow) => next.2.loadNumber) =
      loads.map RawLoad.loadNumber := by
    rw [show (fun (next : Nat × DfRow) => next.2.loadNumber)
        = (DfRow.loadNumber ∘ Prod.snd) from rfl]
    rw [show ((loads.map addHome).enum.map (DfRow.loadNumber ∘ Prod.snd))
        = ((loads.map addHome).enum.map Prod.snd).map DfRow.loadNumber by
      rw [List.map_map]]
    rw [List.enum_map_snd, addHome_ids]
  rw [this]
  exact hnd

theorem buildRows_Triangle (loads : List RawLoad)
    (hnd : (loads.map RawLoad.loadNumber).Nodup) :
    TriangleFacts (buildRows loads) := by
  constructor
  · intro row hrow
    obtain ⟨cur, hcur, rfl⟩ := mem_buildRows.mp hrow
    refine ⟨calculateHours_nonneg _, ?_⟩
    show calculateHours [(cur.2.dropoff, cur.2.home)] ≤
      calculateHours [(cur.2.home, cur.2.pickup), (cur.2.pickup, cur.2.dropoff)]
    rw [calculateHours_single, calculateHours_pair]
    have htr := legLength_triangle cur.2.home cur.2.pickup cur.2.dropoff
    have hcm := legLength_comm cur.2.dropoff cur.2.home
    linarith
  · intro row hrow rt hrt row' hrow' hnum
    obtain ⟨cur, hcur, rfl⟩ := mem_buildRows.mp hrow
    obtain ⟨next, hnext, hne, rfl⟩ := mem_rowTimes_rowOfEnum.mp hrt
    obtain ⟨cur', hcur', rfl⟩ := mem_buildRows.mp hrow'
    have hnodup : ((loads.map addHome).map DfRow.loadNumber).Nodup := by
      rw [addHome_ids]
      exact hnd
    have hidx : cur'.1 = next.1 :=
      nodup_map_index_eq hnodup (List.mem_enum_iff_getElem?.mp hcur')
        (List.mem_enum_iff_getElem?.mp hnext) hnum
    have hsame : cur'.2 = next.2 := by
      have h1 := List.mem_enum_iff_getElem?.mp hcur'
      have h2 := List.mem_enum_iff_getElem?.mp hnext
      rw [hidx, h2] at h1
      exact (Option.some.inj h1).symm
    have hhome : cur.2.home = (0, 0) :=
      addHome_home (of_getElem?_some (List.mem_enum_iff_getElem?.mp hcur))
    have hhome' : next.2.home = (0, 0) :=
      addHome_home (of_getElem?_some (List.mem_enum_iff_getElem?.mp hnext))
    show calculateHours
        [(cur'.2.home, cur'.2.pickup), (cur'.2.pickup, cur'.2.dropoff)] ≤
      calculateHours [(cur.2.dropoff, cur.2.home)] +
        calculateHours
          [(cur.2.dropoff, next.2.pickup), (next.2.pickup, next.2.dropoff)]
    rw [hsame, calculateHours_single, calculateHours_pair, calculateHours_pair,
      hhome, hhome']
    have htr := legLength_triangle ((0 : ℝ), (0 : ℝ)) cur.2.dropoff next.2.pickup
    have hcm := legLength_comm cur.2.dropoff ((0 : ℝ), (0 : ℝ))
    linarith

/-! ### Oversized loads end up alone on their driver -/

theorem head?_append_ne_nil {β : Type} {l l' : List β} (h : l ≠ []) :
    (l ++ l').head? = l.head? := by
  cases l with
  | nil => exact absurd rfl h
  | cons a t => rfl

theorem rows_eq_of_nodup {df : List (Row α)} (hnd : (dfIds df).Nodup)
    {r r' : Row α} (h : r ∈ df) (h' : r' ∈ df)
    (heq : r.loadNumber = r'.loadNumber) : r = r' := by
  have h1 := lookupRow_self hnd h
  have h2 := lookupRow_self hnd h'
  rw [heq] at h1
  exact Option.some.inj (h1.symm.trans h2)

theorem FoundSpec.of_ne_nil {s : SchedState α} {drivers : List (Driver α)}
    {i : Nat} {driver : Driver α} (h : FoundSpec s drivers i driver)
    (hne : driver.loads ≠ []) :
    findIdxSched s.drivers = some (i, driver) ∧ drivers = s.drivers := by
  rcases h with ⟨h1, rfl⟩ | ⟨h1, rfl, rfl, rfl⟩
  · exact ⟨h1, rfl⟩
  · simp [Driver.new] at hne

theorem FoundSpec.empty_new {df : List (Row α)} {s : SchedState α}
    {drivers : List (Driver α)} {i : Nat} {driver : Driver α}
    (h : FoundSpec s drivers i driver) (hinv : StInv df s)
    (hl : driver.loads = []) : driver = Driver.new := by
  rcases h with ⟨h1, rfl⟩ | ⟨h1, rfl, rfl, rfl⟩
  · exact absurd hl
      (hinv.loadsNe driver (of_getElem?_some (findIdxSched_some h1).1))
  · rfl

theorem geoInv_step {df : List (Row α)} {s s' : SchedState α}
    (hnd : (dfIds df).Nodup) (hsum : RtSums df) (hnn : RtNonneg df)
    (htri : TriangleFacts df) (hinv : StInv df s)
    (hdist : DistInv df s) (hhead : HeadInv df s) (hovr : OversizedInv df s)
    (hstep : schedStep df s = some s') :
    DistInv df s' ∧ HeadInv df s' ∧ OversizedInv df s' := by
  obtain ⟨drivers, i, driver, hfound, haux⟩ := schedStep_elim hstep
  have hget := hfound.getElem
  have hlast := hfound.last hinv.lastActive
  have hact := hfound.active
  rcases schedStepAux_cases haux with
    ⟨row, hl, hfr, rfl⟩ | ⟨last, rt, hne, hgl, hfn, rfl⟩ |
      ⟨last, row, hne, hgl, hfn, hlr, rfl⟩
  · -- first assignment
    have hnew : driver = Driver.new := hfound.empty_new hinv hl
    have hdh : driver.driveHours = 0 := by rw [hnew]; rfl
    obtain ⟨hrdf, hrnot, _⟩ := firstRoute_spec hfr
    refine ⟨?_, ?_, ?_⟩
    · intro d hd hact' last' hgl' rowX hrowX hnum
      rw [(set_last_eq hget hlast _).2] at hd
      rcases List.mem_append.mp hd with hd1 | hd1
      · exact hdist d (hfound.dropLast_mem hd1) hact' last' hgl' rowX hrowX hnum
      · rw [List.mem_singleton.mp hd1] at hgl' ⊢
        simp only [List.getLast?_concat, Option.some.injEq] at hgl'
        have hXr : rowX = row :=
          rows_eq_of_nodup hnd hrowX hrdf (by rw [hnum, ← hgl'])
        simp only [hdh, hXr, zero_add]
        exact (htri.1 row hrdf).2
    · intro d hd hact' h' hh' rowX hrowX hnum
      rw [(set_last_eq hget hlast _).2] at hd
      rcases List.mem_append.mp hd with hd1 | hd1
      · exact hhead d (hfound.dropLast_mem hd1) hact' h' hh' rowX hrowX hnum
      · rw [List.mem_singleton.mp hd1] at hh' ⊢
        simp only [hl, List.nil_append, List.head?_cons, Option.some.injEq] at hh'
        have hXr : rowX = row :=
          rows_eq_of_nodup hnd hrowX hrdf (by rw [hnum, ← hh'])
        simp only [hdh, hXr, zero_add, le_refl]
    · intro d hd id hid rowX hrowX hnum h12
      rw [(set_last_eq hget hlast _).2] at hd
      rcases List.mem_append.mp hd with hd1 | hd1
      · exact hovr d (hfound.dropLast_mem hd1) id hid rowX hrowX hnum h12
      · rw [List.mem_singleton.mp hd1] at hid ⊢
        simp only [hl, List.nil_append, List.mem_singleton] at hid
        simp only [hl, List.nil_append, hid]
  · -- continuation assignment
    obtain ⟨h1, hdeq⟩ := hfound.of_ne_nil hne
    subst hdeq
    have hdmem : driver ∈ s.drivers := of_getElem?_some hget
    obtain ⟨rowLast, hlr, hrtmem, hrtnot, hfeas⟩ := findNextSchedule_commit hfn
    have hrowLastMem := (lookupRow_some hlr).1
    have hrowLastNum := (lookupRow_some hlr).2
    have htrans : 0 ≤ rt.currentDropoffToNextDropoff :=
      (hnn rowLast hrowLastMem rt hrtmem).2
    have hhome : 0 ≤ rt.dropoffToHome := (hnn rowLast hrowLastMem rt hrtmem).1
    have hsum' := hsum rowLast hrowLastMem rt hrtmem
    have hdlast : rowLast.dropoffToHome ≤ driver.driveHours :=
      hdist driver hdmem hact last hgl rowLast hrowLastMem hrowLastNum
    refine ⟨?_, ?_, ?_⟩
    · intro d hd hact' last' hgl' rowX hrowX hnum
      rw [(set_last_eq hget hlast _).2] at hd
      rcases List.mem_append.mp hd with hd1 | hd1
      · exact hdist d (hfound.dropLast_mem hd1) hact' last' hgl' rowX hrowX hnum
      · rw [List.mem_singleton.mp hd1] at hgl' ⊢
        simp only [List.getLast?_concat, Option.some.injEq] at hgl'
        have hX2 : rowX.homeToDropoff ≤
            rowLast.dropoffToHome + rt.currentDropoffToNextDropoff :=
          htri.2 rowLast hrowLastMem rt hrtmem rowX hrowX (by rw [hnum, ← hgl'])
        have hX1' := (htri.1 rowX hrowX).2
        show rowX.dropoffToHome ≤
          driver.driveHours + rt.currentDropoffToNextDropoff
        calc rowX.dropoffToHome ≤ rowX.homeToDropoff := hX1'
          _ ≤ rowLast.dropoffToHome + rt.currentDropoffToNextDropoff := hX2
          _ ≤ driver.driveHours + rt.currentDropoffToNextDropoff :=
              add_le_add_right hdlast _
    · intro d hd hact' h' hh' rowX hrowX hnum
      rw [(set_last_eq hget hlast _).2] at hd
      rcases List.mem_append.mp hd with hd1 | hd1
      · exact hhead d (hfound.dropLast_mem hd1) hact' h' hh' rowX hrowX hnum
      · rw [List.mem_singleton.mp hd1] at hh' ⊢
        simp only [head?_append_ne_nil hne] at hh'
        have hold : rowX.homeToDropoff ≤ driver.driveHours :=
          hhead driver hdmem hact h' hh' rowX hrowX hnum
        show rowX.homeToDropoff ≤
          driver.driveHours + rt.currentDropoffToNextDropoff
        exact le_trans hold (le_add_of_nonneg_right htrans)
    · intro d hd id hid rowX hrowX hnum h12
      rw [(set_last_eq hget hlast _).2] at hd
      rcases List.mem_append.mp hd with hd1 | hd1
      · exact hovr d (hfound.dropLast_mem hd1) id hid rowX hrowX hnum h12
      · exfalso
        rw [List.mem_singleton.mp hd1] at hid
        rcases List.mem_append.mp hid with hid1 | hid1
        · -- an existing load of this driver is oversized: route was [id]
          have hsing : driver.loads = [id] :=
            hovr driver hdmem id hid1 rowX hrowX hnum h12
          have hh : driver.loads.head? = some id := by
            rw [hsing]
            rfl
          have hhd : rowX.homeToDropoff ≤ driver.driveHours :=
            hhead driver hdmem hact id hh rowX hrowX hnum
          have htot : 0 ≤ rt.currentDropoffToNextDropoffToHome := by
            rw [hsum']
            exact add_nonneg htrans hhome
          have hdh12 : driver.driveHours ≤ 12 :=
            le_trans (le_add_of_nonneg_right htot) hfeas
          exact absurd (lt_of_lt_of_le h12 (le_trans hhd hdh12)) (lt_irrefl _)
        · -- the appended load is oversized: its first leg bound
          rw [List.mem_singleton.mp hid1] at hnum
          have hX2 : rowX.homeToDropoff ≤
              rowLast.dropoffToHome + rt.currentDropoffToNextDropoff :=
            htri.2 rowLast hrowLastMem rt hrtmem rowX hrowX hnum
          have c1 : rowLast.dropoffToHome + rt.currentDropoffToNextDropoff ≤
              driver.driveHours + rt.currentDropoffToNextDropoff :=
            add_le_add_right hdlast _
          have c2 : driver.driveHours + rt.currentDropoffToNextDropoff ≤
              driver.driveHours + rt.currentDropoffToNextDropoffToHome := by
            refine add_le_add_left ?_ driver.driveHours
            rw [hsum']
            exact le_add_of_nonneg_right hhome
          exact absurd
            (lt_of_lt_of_le h12
              (le_trans hX2 (le_trans c1 (le_trans c2 hfeas))))
            (lt_irrefl _)
  · -- finalization
    obtain ⟨h1, hdeq⟩ := hfound.of_ne_nil hne
    subst hdeq
    have hdmem : driver ∈ s.drivers := of_getElem?_some hget
    refine ⟨?_, ?_, ?_⟩
    · intro d hd hact' last' hgl' rowX hrowX hnum
      rw [(set_last_eq hget hlast _).2] at hd
      rcases List.mem_append.mp hd with hd1 | hd1
      · exact hdist d (hfound.dropLast_mem hd1) hact' last' hgl' rowX hrowX hnum
      · rw [List.mem_singleton.mp hd1] at hact'
        simp at hact'
    · intro d hd hact' h' hh' rowX hrowX hnum
      rw [(set_last_eq hget hlast _).2] at hd
      rcases List.mem_append.mp hd with hd1 | hd1
      · exact hhead d (hfound.dropLast_mem hd1) hact' h' hh' rowX hrowX hnum
      · rw [List.mem_singleton.mp hd1] at hact'
        simp at hact'
    · intro d hd id hid rowX hrowX hnum h12
      rw [(set_last_eq hget hlast _).2] at hd
      rcases List.mem_append.mp hd with hd1 | hd1
      · exact hovr d (hfound.dropLast_mem hd1) id hid rowX hrowX hnum h12
      · rw [List.mem_singleton.mp hd1] at hid ⊢
        exact hovr driver hdmem id hid rowX hrowX hnum h12

theorem geoInv_reaches {df : List (Row α)} {s s' : SchedState α}
    (hnd : (dfIds df).Nodup) (hsum : RtSums df) (hnn : RtNonneg df)
    (htri : TriangleFacts df) (h : Reaches df s s') (hinv : StInv df s)
    (hdist : DistInv df s) (hhead : HeadInv df s) (hovr : OversizedInv df s) :
    DistInv df s' ∧ HeadInv df s' ∧ OversizedInv df s' := by
  induction h with
  | refl s => exact ⟨hdist, hhead, hovr⟩
  | step s s1 s2 hc hstep hr ih =>
    obtain ⟨h1, h2, h3⟩ :=
      geoInv_step hnd hsum hnn htri hinv hdist hhead hovr hstep
    exact ih (stInv_step hinv hc hstep) h1 h2 h3

theorem exit_scheduled_perm {df : List (Row α)} {s : SchedState α}
    (hnd : (dfIds df).Nodup) (hinv : StInv df s) (hids : IdsInv df s)
    (hncond : ¬ s.loadsScheduled.length < df.length) :
    s.loadsScheduled.Perm (dfIds df) := by
  have hsp : s.loadsScheduled.Subperm (dfIds df) :=
    List.subperm_of_subset hinv.nodup hids
  refine hsp.perm_of_length_le ?_
  simp only [dfIds, List.length_map]
  omega

theorem oversized_sole_table {df : List (Row α)} (hnd : (dfIds df).Nodup)
    (hsum : RtSums df) (hnn : RtNonneg df) (hcl : TargetsClosed df)
    (htri : TriangleFacts df) {fuel : Nat} {out : List (Driver α)}
    (hrun : mainSchedule df fuel = some out) {row : Row α} (hrow : row ∈ df)
    (h12 : 12 < row.homeToDropoff) :
    ∃ d ∈ out, d.loads = [row.loadNumber] ∧ d.isScheduling = false := by
  obtain ⟨s, hdone, hfin⟩ := mainSchedule_elim hrun
  obtain ⟨hreach, hncond⟩ := schedRun_done_reaches hdone
  have hinv := stInv_reaches (stInv_init df) hreach
  have hids := idsInv_reaches hcl hreach (idsInv_init df)
  have hgeo := geoInv_reaches hnd hsum hnn htri hreach (stInv_init df)
    (by intro d hd; simp [schedInit] at hd)
    (by intro d hd; simp [schedInit] at hd)
    (by intro d hd; simp [schedInit] at hd)
  have hperm := exit_scheduled_perm hnd hinv hids hncond
  have hidmem : row.loadNumber ∈ s.loadsScheduled :=
    hperm.mem_iff.mpr (List.mem_map_of_mem Row.loadNumber hrow)
  rw [← hinv.joinEq] at hidmem
  obtain ⟨loadsL, hL, hidin⟩ := List.mem_flatten.mp hidmem
  obtain ⟨d, hdmem, rfl⟩ := List.mem_map.mp hL
  have hsingle : d.loads = [row.loadNumber] :=
    hgeo.2.2 d hdmem row.loadNumber hidin row hrow rfl h12
  obtain ⟨i, driver, lastl, rowF, hfind, hgl, hlrF, rfl⟩ := finalizeLast_elim hfin
  have hgetI := (findIdxSched_some hfind).1
  have hlastI : i + 1 = s.drivers.length :=
    hinv.lastActive i driver hgetI (findIdxSched_some hfind).2
  obtain ⟨j, hj⟩ := List.mem_iff_getElem?.mp hdmem
  by_cases hij : i = j
  · subst hij
    have hdd : d = driver := Option.some.inj (hj.symm.trans hgetI)
    have hilt : i < s.drivers.length := (List.getElem?_eq_some_iff.mp hj).1
    refine ⟨_, List.mem_set s.drivers i hilt _, ?_, rfl⟩
    show driver.loads = [row.loadNumber]
    rw [← hdd]
    exact hsingle
  · have hj' : (s.drivers.set i
        { driver with
            driveHours := driver.driveHours + rowF.dropoffToHome,
            isScheduling := false })[j]? = some d := by
      rw [List.getElem?_set_ne hij]
      exact hj
    refine ⟨d, of_getElem?_some hj', hsingle, ?_⟩
    cases hv : d.isScheduling
    · rfl
    · exfalso
      have := hinv.lastActive j d hj hv
      omega

/-- **C7**: for every input with unique identifiers, a load whose
`homeToDropoffHours` alone exceeds 12 is still scheduled — the first-leg
assignment performs no cap check — and it ends up as the sole load of a
(finalized) driver's route: the triangle inequality makes every
continuation onto or past an oversized load infeasible. -/
theorem vrp_C7_oversized_sole (loads : List RawLoad)
    (hnd : (loads.map RawLoad.loadNumber).Nodup) (fuel : Nat)
    (out : List (Driver ℝ))
    (hrun : mainSchedule (buildRows loads) fuel = some out)
    (row : Row ℝ) (hrow : row ∈ buildRows loads)
    (h12 : 12 < row.homeToDropoff) :
    ∃ d ∈ out, d.loads = [row.loadNumber] ∧ d.isScheduling = false :=
  oversized_sole_table (by rw [buildRows_ids]; exact hnd)
    (buildRows_RtSums loads) (buildRows_RtNonneg loads)
    (buildRows_TargetsClosed loads) (buildRows_Triangle loads hnd)
    hrun hrow h12

theorem mainSchedule_rawOversized :
    mainSchedule (buildRows rawOversized) 2 = some [⟨[1], 26, false⟩] := by
  rw [buildRows_rawOversized]
  norm_num [mainSchedule, schedRun, schedStep, schedStepAux, schedInit,
    findIdxSched, firstRoute, minByKey, findNextSchedule, lookupRow,
    applySchedule, finalizeLast, Driver.new, List.filter_cons,
    List.filter_nil]

theorem vrp_C7_witness :
    ∃ d ∈ [(⟨[1], (26 : ℝ), false⟩ : Driver ℝ)],
      d.loads = [(1 : Nat)] ∧ d.isScheduling = false :=
  vrp_C7_oversized_sole rawOversized (by decide) 2 [⟨[1], 26, false⟩]
    mainSchedule_rawOversized ⟨1, 13, 13, []⟩
    (by rw [buildRows_rawOversized]; exact List.mem_cons_self _ _)
    (by norm_num)

/-! ### The accounting identity: committed hours along a route -/

theorem lookupRT_self {rts : List (RouteTime α)}
    (hnd : (rts.map RouteTime.loadNumber).Nodup) {rt : RouteTime α}
    (h : rt ∈ rts) : lookupRT rts rt.loadNumber = some rt := by
  induction rts with
  | nil => cases h
  | cons a t ih =>
    simp only [List.map_cons, List.nodup_cons] at hnd
    rcases List.mem_cons.mp h with rfl | h'
    · unfold lookupRT
      rw [if_pos rfl]
    · have hne : ¬ a.loadNumber = rt.loadNumber := by
        intro hab
        exact hnd.1 (hab ▸ List.mem_map_of_mem RouteTime.loadNumber h')
      unfold lookupRT
      rw [if_neg hne]
      exact ih hnd.2 h'

theorem chainCost_snoc {df : List (Row α)} {rest : List Nat} :
    ∀ {cur : Nat} {c : α}, chainCost df cur rest = some c →
      ∀ {l : Nat}, (cur :: rest).getLast? = some l →
      ∀ {rowL : Row α}, lookupRow df l = some rowL →
      ∀ {x : Nat} {rt : RouteTime α}, lookupRT rowL.routeTimes x = some rt →
      chainCost df cur (rest ++ [x]) =
        some (c + rt.currentDropoffToNextDropoff) := by
  induction rest with
  | nil =>
    intro cur c hc l hl rowL hrow x rt hrt
    have hc0 : (0 : α) = c := Option.some.inj hc
    have hcl : cur = l := by simpa using hl
    show chainCost df cur ([] ++ [x]) = some (c + rt.currentDropoffToNextDropoff)
    rw [List.nil_append]
    unfold chainCost
    rw [hcl, hrow]
    simp only []
    rw [hrt]
    simp only []
    rw [show chainCost df x [] = some (0 : α) from rfl]
    simp only []
    rw [← hc0, add_zero, zero_add]
  | cons y rest' ih =>
    intro cur c hc l hl rowL hrow x rt hrt
    unfold chainCost at hc
    cases h1 : lookupRow df cur with
    | none => rw [h1] at hc; cases hc
    | some row0 =>
      rw [h1] at hc
      simp only [] at hc
      cases h2 : lookupRT row0.routeTimes y with
      | none => rw [h2] at hc; cases hc
      | some rt0 =>
        rw [h2] at hc
        simp only [] at hc
        cases h3 : chainCost df y rest' with
        | none => rw [h3] at hc; cases hc
        | some c' =>
          rw [h3] at hc
          simp only [] at hc
          have hc' : c = rt0.currentDropoffToNextDropoff + c' :=
            (Option.some.inj hc).symm
          have hl2 : (y :: rest').getLast? = some l := by
            rw [← List.getLast?_cons_cons]
            exact hl
          have hrec := ih h3 hl2 hrow hrt
          show chainCost df cur (y :: (rest' ++ [x])) =
            some (c + rt.currentDropoffToNextDropoff)
          unfold chainCost
          rw [h1]
          simp only []
          rw [h2]
          simp only []
          rw [hrec]
          simp only []
          rw [hc', add_assoc]

theorem partialHours_snoc {df : List (Row α)} {L : List Nat} {p : α}
    (hp : partialHours df L = some p) {l : Nat} (hl : L.getLast? = some l)
    {rowL : Row α} (hrow : lookupRow df l = some rowL)
    {x : Nat} {rt : RouteTime α} (hrt : lookupRT rowL.routeTimes x = some rt) :
    partialHours df (L ++ [x]) = some (p + rt.currentDropoffToNextDropoff) := by
  cases L with
  | nil => simp [partialHours] at hp
  | cons h t =>
    unfold partialHours at hp
    simp only [] at hp
    cases h1 : lookupRow df h with
    | none => rw [h1] at hp; simp at hp
    | some rowH =>
      rw [h1] at hp
      cases h2 : chainCost df h t with
      | none => rw [h2] at hp; simp at hp
      | some c =>
        rw [h2] at hp
        simp only [] at hp
        have hp' : p = rowH.homeToDropoff + c := (Option.some.inj hp).symm
        have hrec := chainCost_snoc h2 hl hrow hrt
        show (match lookupRow df h, chainCost df h (t ++ [x]) with
          | some r, some c => some (r.homeToDropoff + c)
          | _, _ => none) = some (p + rt.currentDropoffToNextDropoff)
        rw [h1, hrec]
        simp only []
        rw [hp', add_assoc]

theorem routeHours_eq {df : List (Row α)} {L : List Nat} {p : α}
    (hp : partialHours df L = some p) {l : Nat} (hl : L.getLast? = some l)
    {rowL : Row α} (hrow : lookupRow df l = some rowL) :
    routeHours df L = some (p + rowL.dropoffToHome) := by
  unfold routeHours
  rw [hp, hl]
  simp only []
  rw [hrow]

theorem hoursInv_step {df : List (Row α)} {s s' : SchedState α}
    (hnd : (dfIds df).Nodup) (htn : TargetsNodup df) (hinv : StInv df s)
    (hh : HoursInv df s) (hstep : schedStep df s = some s') : HoursInv df s' := by
  obtain ⟨drivers, i, driver, hfound, haux⟩ := schedStep_elim hstep
  have hget := hfound.getElem
  have hlast := hfound.last hinv.lastActive
  have hact := hfound.active
  rcases schedStepAux_cases haux with
    ⟨row, hl, hfr, rfl⟩ | ⟨last, rt, hne, hgl, hfn, rfl⟩ |
      ⟨last, row, hne, hgl, hfn, hlr, rfl⟩
  · -- first assignment: fresh driver, hours = homeToDropoff of the row
    have hnew : driver = Driver.new := hfound.empty_new hinv hl
    have hdh : driver.driveHours = 0 := by rw [hnew]; rfl
    obtain ⟨hrdf, hrnot, _⟩ := firstRoute_spec hfr
    intro d hd
    rw [(set_last_eq hget hlast _).2] at hd
    rcases List.mem_append.mp hd with hd1 | hd1
    · exact hh d (hfound.dropLast_mem hd1)
    · rw [List.mem_singleton.mp hd1]
      constructor
      · intro _
        show partialHours df (driver.loads ++ [row.loadNumber]) =
          some (driver.driveHours + row.homeToDropoff)
        rw [hl, List.nil_append]
        show (match lookupRow df row.loadNumber,
            chainCost df row.loadNumber [] with
          | some r, some c => some (r.homeToDropoff + c)
          | _, _ => none) = some (driver.driveHours + row.homeToDropoff)
        rw [lookupRow_self hnd hrdf,
          show chainCost df row.loadNumber [] = some (0 : α) from rfl]
        simp only []
        rw [hdh, add_zero, zero_add]
      · intro hf
        rw [show ({ driver with
            loads := driver.loads ++ [row.loadNumber],
            driveHours := driver.driveHours + row.homeToDropoff } :
              Driver α).isScheduling = driver.isScheduling from rfl] at hf
        cases hact.symm.trans hf
  · -- continuation: hours grow by the transition leg
    obtain ⟨h1, hdeq⟩ := hfound.of_ne_nil hne
    subst hdeq
    have hdmem : driver ∈ s.drivers := of_getElem?_some hget
    obtain ⟨rowLast, hlr, hrtmem, hrtnot, hfeas⟩ := findNextSchedule_commit hfn
    have hrowLastMem := (lookupRow_some hlr).1
    have hpart := (hh driver hdmem).1 hact
    have hrtfind : lookupRT rowLast.routeTimes rt.loadNumber = some rt :=
      lookupRT_self (htn rowLast hrowLastMem) hrtmem
    intro d hd
    rw [(set_last_eq hget hlast _).2] at hd
    rcases List.mem_append.mp hd with hd1 | hd1
    · exact hh d (hfound.dropLast_mem hd1)
    · rw [List.mem_singleton.mp hd1]
      constructor
      · intro _
        exact partialHours_snoc hpart hgl hlr hrtfind
      · intro hf
        rw [show ({ driver with
            loads := driver.loads ++ [rt.loadNumber],
            driveHours := driver.driveHours + rt.currentDropoffToNextDropoff } :
              Driver α).isScheduling = driver.isScheduling from rfl] at hf
        cases hact.symm.trans hf
  · -- finalization: the return leg of the last load is charged once
    obtain ⟨h1, hdeq⟩ := hfound.of_ne_nil hne
    subst hdeq
    have hdmem : driver ∈ s.drivers := of_getElem?_some hget
    have hpart := (hh driver hdmem).1 hact
    intro d hd
    rw [(set_last_eq hget hlast _).2] at hd
    rcases List.mem_append.mp hd with hd1 | hd1
    · exact hh d (hfound.dropLast_mem hd1)
    · rw [List.mem_singleton.mp hd1]
      constructor
      · intro hf
        cases hf
      · intro _
        exact routeHours_eq hpart hgl hlr

theorem hoursInv_reaches {df : List (Row α)} {s s' : SchedState α}
    (hnd : (dfIds df).Nodup) (htn : TargetsNodup df) (h : Reaches df s s')
    (hinv : StInv df s) (hh : HoursInv df s) : HoursInv df s' := by
  induction h with
  | refl s => exact hh
  | step s s1 s2 hc hstep hr ih =>
    exact ih (stInv_step hinv hc hstep) (hoursInv_step hnd htn hinv hh hstep)

/-- **C5**: every committed continuation charges exactly
`transitionHours` and every finalization charges the return-home leg of
the driver's current last load exactly once — in or after the loop — so
each output driver's `driveHours` is exactly the route cost
`homeToDropoff(first) + Σ transitionHours + dropoffToHome(last)`
computed by `routeHours` from the table. -/
theorem vrp_C5_charge_asymmetry (df : List (Row α)) (hnd : (dfIds df).Nodup)
    (htn : TargetsNodup df) (fuel : Nat) (out : List (Driver α))
    (hrun : mainSchedule df fuel = some out) :
    ∀ d ∈ out, routeHours df d.loads = some d.driveHours := by
  obtain ⟨s, hdone, hfin⟩ := mainSchedule_elim hrun
  obtain ⟨hreach, hncond⟩ := schedRun_done_reaches hdone
  have hinv := stInv_reaches (stInv_init df) hreach
  have hh := hoursInv_reaches hnd htn hreach (stInv_init df)
    (by intro d hd; simp [schedInit] at hd)
  obtain ⟨i, driver, lastl, rowF, hfind, hgl, hlrF, rfl⟩ := finalizeLast_elim hfin
  have hgetI := (findIdxSched_some hfind).1
  have hactI := (findIdxSched_some hfind).2
  have hlastI : i + 1 = s.drivers.length := hinv.lastActive i driver hgetI hactI
  intro d hd
  rw [(set_last_eq hgetI hlastI _).2] at hd
  rcases List.mem_append.mp hd with hd1 | hd1
  · -- a driver finalized inside the loop: already accounted for
    obtain ⟨j, hj⟩ := List.mem_iff_getElem?.mp hd1
    rw [List.getElem?_dropLast] at hj
    by_cases hjlt : j < s.drivers.length - 1
    · rw [if_pos hjlt] at hj
      have hdmem : d ∈ s.drivers := of_getElem?_some hj
      have hflag : d.isScheduling = false := by
        cases hv : d.isScheduling
        · rfl
        · exfalso
          have := hinv.lastActive j d hj hv
          omega
      exact (hh d hdmem).2 hflag
    · rw [if_neg hjlt] at hj
      cases hj
  · -- the driver closed by the post-loop step
    rw [List.mem_singleton.mp hd1]
    have hpart := (hh driver (of_getElem?_some hgetI)).1 hactI
    exact routeHours_eq hpart hgl hlrF

theorem vrp_C5_witness :
    routeHours df3z [1, 2, 3] = some (6 : ℤ) :=
  vrp_C5_charge_asymmetry df3z (by decide) (by unfold TargetsNodup; decide) 6
    [⟨[1, 2, 3], 6, false⟩] (by decide) ⟨[1, 2, 3], 6, false⟩ (by decide)

end VRP
